import Mathlib

/-!
Verification of the dataflow-analysis layer of pyston
(src/analysis/function_analysis.cpp): the per-block statement classifier,
the liveness oracle, the definedness fixed-point analysis and the
phi-requirement analysis.  The control-flow graph, the syntax nodes and the
scope resolver are external collaborators; they are embedded here as plain
data.  The generic fixed-point engine (analysis/fpc.h) is not part of the
sources, so it is modelled from the specification's contract.
-/

namespace Pyston

/-- The three-valued definedness lattice of `DefinednessAnalysis`
(`Undefined`, `PotentiallyDefined`, `Defined`).  `Undefined` doubles as
"absent from the computed map", exactly as `isDefinedAt` treats absence. -/
inductive DefinitionLevel where
  | Undefined
  | PotentiallyDefined
  | Defined
deriving DecidableEq, Repr

/-- Context tag of an `AST_Name` reference (`AST_TYPE::Load` / `Store`). -/
inductive CtxType where
  | Load
  | Store
deriving DecidableEq, Repr

/-- An `AST_alias` of an import statement: the imported `name` and the
`asname` it is bound to (empty string when there is no `as` clause). -/
structure ImAlias where
  name : String
  asname : String
deriving DecidableEq, Repr

/-- The syntax nodes inspected by the two block classifiers
(`LivenessBBVisitor` and `DefinednessVisitor`).  Bodies of nested class and
function definitions are never descended into by either classifier, so they
are not represented. -/
inductive AST where
  | Name (ctx : CtxType) (id : String)
  | Num (n : Int)
  | ClassDef (name : String)
  | FunctionDef (name : String)
  | Import (names : List ImAlias)
  | Assign (targets : List AST) (value : AST)
  | Attribute (value : AST)
  | Subscript (value : AST) (slice : AST)
  | Tuple (elts : List AST)
  | Expr (value : AST)
  | Branch (test : AST)
  | Jump
  | Pass
  | Return (value : Option AST)
  | Print (values : List AST)
  | Global (names : List String)

/-- An `AST_arguments` node: ordinary parameters (name nodes), the variadic
parameter name (empty when absent) and the optional keyword catch-all node,
as consumed by `DefinednessVisitor::visit_arguments`. -/
structure Arguments where
  args : List AST
  vararg : String
  kwarg : Option AST

/-- A `CFGBlock`: stable index, statement list, ordered predecessor and
successor lists (stored as block indices). -/
structure CFGBlock where
  idx : Nat
  body : List AST
  predecessors : List Nat
  successors : List Nat

/-- A `CFG`: the ordered block list; block index 0 is the entry block. -/
structure CFG where
  blocks : List CFGBlock

/-- Look a block up by its stable index. -/
def getBlock (cfg : CFG) (i : Nat) : Option CFGBlock :=
  cfg.blocks.find? (fun b => b.idx == i)

/-! ## Liveness block classifier (`LivenessBBVisitor`) -/

/-- The accumulation state of one `LivenessBBVisitor`: the `_loads` and
`_stores` string sets. -/
structure LiveState where
  loads : List String
  stores : List String
deriving DecidableEq, Repr

/-- `LivenessBBVisitor::_doLoad`: record a load unless the name was already
stored in this block. -/
def doLoad (s : LiveState) (name : String) : LiveState :=
  if name ∈ s.stores then s else { s with loads := name :: s.loads }

/-- `LivenessBBVisitor::_doStore`: record a store unless the name was
already loaded in this block. -/
def doStore (s : LiveState) (name : String) : LiveState :=
  if name ∈ s.loads then s else { s with stores := name :: s.stores }

mutual
/-- One step of `LivenessBBVisitor` on a syntax node.  `visit_name`
dispatches on the context tag, `visit_classdef` / `visit_functiondef`
store the declared name without descending; every other node is handled by
the `NoopASTVisitor` default, which records nothing for the node itself and
descends into its sub-nodes (import aliases carry plain identifiers, not
name-reference nodes, so an import contributes nothing). -/
def livenessVisit (s : LiveState) : AST → LiveState
  | .Name ctx id =>
      match ctx with
      | .Load => doLoad s id
      | .Store => doStore s id
  | .Num _ => s
  | .ClassDef n => doStore s n
  | .FunctionDef n => doStore s n
  | .Import _ => s
  | .Assign targets value => livenessVisitList (livenessVisit s value) targets
  | .Attribute v => livenessVisit s v
  | .Subscript v sl => livenessVisit (livenessVisit s v) sl
  | .Tuple elts => livenessVisitList s elts
  | .Expr v => livenessVisit s v
  | .Branch t => livenessVisit s t
  | .Jump => s
  | .Pass => s
  | .Return v =>
      match v with
      | some e => livenessVisit s e
      | none => s
  | .Print vs => livenessVisitList s vs
  | .Global _ => s

/-- Fold `livenessVisit` over a node list in order. -/
def livenessVisitList (s : LiveState) : List AST → LiveState
  | [] => s
  | t :: ts => livenessVisitList (livenessVisit s t) ts
end

/-- Run one fresh `LivenessBBVisitor` over a block body
(`isLiveAtEnd` builds one per popped block). -/
def blockLV (b : CFGBlock) : LiveState :=
  livenessVisitList ⟨[], []⟩ b.body

/-- Does the block's computed read set contain `name`
(`visitor.loads().count(name)`)? -/
def blockLoads (b : CFGBlock) (name : String) : Bool :=
  (blockLV b).loads.contains name

/-- Does the block's computed write set contain `name`
(`visitor.stores().count(name)`)? -/
def blockStores (b : CFGBlock) (name : String) : Bool :=
  (blockLV b).stores.contains name

/-! ## Liveness oracle (`LivenessAnalysis::isLiveAtEnd`) -/

/-- Blocks of `cfg` whose index is not yet in `visited`; its length is the
first component of the termination measure of the worklist loop. -/
def unvisitedCount (cfg : CFG) (visited : List Nat) : Nat :=
  (cfg.blocks.filter (fun blk => decide (blk.idx ∉ visited))).length

theorem length_filter_le_of_imp {α : Type} (l : List α) (p q : α → Bool)
    (h : ∀ a ∈ l, p a = true → q a = true) :
    (l.filter p).length ≤ (l.filter q).length := by
  induction l with
  | nil => simp
  | cons a t ih =>
      have ht : ∀ x ∈ t, p x = true → q x = true := fun x hx => h x (by simp [hx])
      by_cases hp : p a = true
      · have hq : q a = true := h a (by simp) hp
        simp [List.filter, hp, hq]
        exact ih ht
      · simp only [List.filter, Bool.not_eq_true] at hp ⊢
        rw [hp]
        by_cases hq : q a = true
        · simp [hq]
          exact Nat.le_succ_of_le (ih ht)
        · simp only [Bool.not_eq_true] at hq
          rw [hq]
          exact ih ht

theorem length_filter_lt_of_witness {α : Type} (l : List α) (p q : α → Bool)
    (h : ∀ a ∈ l, p a = true → q a = true)
    (a : α) (ha : a ∈ l) (hpa : p a = false) (hqa : q a = true) :
    (l.filter p).length < (l.filter q).length := by
  induction l with
  | nil => cases ha
  | cons b t ih =>
      have ht : ∀ x ∈ t, p x = true → q x = true := fun x hx => h x (by simp [hx])
      rcases List.mem_cons.mp ha with rfl | hat
      · simp [List.filter, hpa, hqa]
        exact Nat.lt_succ_of_le (length_filter_le_of_imp t p q ht)
      · by_cases hp : p b = true
        · have hq : q b = true := h b (by simp) hp
          simp [List.filter, hp, hq]
          exact ih ht hat
        · simp only [List.filter, Bool.not_eq_true] at hp ⊢
          rw [hp]
          by_cases hq : q b = true
          · simp [hq]
            exact Nat.lt_succ_of_lt (ih ht hat)
          · simp only [Bool.not_eq_true] at hq
            rw [hq]
            exact ih ht hat

theorem unvisited_le_insert (cfg : CFG) (visited : List Nat) (b : Nat) :
    unvisitedCount cfg (b :: visited) ≤ unvisitedCount cfg visited := by
  apply length_filter_le_of_imp
  intro blk _ h
  simp only [decide_eq_true_eq, List.mem_cons, not_or] at h ⊢
  exact h.2

theorem unvisited_lt_insert (cfg : CFG) (visited : List Nat) (b : Nat)
    (blk : CFGBlock) (hmem : blk ∈ cfg.blocks) (hidx : blk.idx = b)
    (hb : b ∉ visited) :
    unvisitedCount cfg (b :: visited) < unvisitedCount cfg visited := by
  apply length_filter_lt_of_witness _ _ _ ?_ blk hmem
  · simp [hidx]
  · simp [hidx, hb]
  · intro a _ h
    simp only [decide_eq_true_eq, List.mem_cons, not_or] at h ⊢
    exact h.2

theorem getBlock_mem {cfg : CFG} {i : Nat} {blk : CFGBlock}
    (h : getBlock cfg i = some blk) : blk ∈ cfg.blocks ∧ blk.idx = i := by
  unfold getBlock at h
  refine ⟨List.mem_of_find?_eq_some h, ?_⟩
  have := List.find?_some h
  simpa using this

theorem getBlock_none_idx {cfg : CFG} {i : Nat}
    (h : getBlock cfg i = none) : ∀ blk ∈ cfg.blocks, blk.idx ≠ i := by
  intro blk hmem
  unfold getBlock at h
  have := List.find?_eq_none.mp h blk hmem
  simpa using this

/-- The worklist traversal of `LivenessAnalysis::isLiveAtEnd`: pop the
front of the deque; skip already-visited blocks; build a fresh classifier
for the block; return true when the block loads the name; enqueue its
successors (at the back) unless it stores the name. -/
def bfsLive (cfg : CFG) (name : String) : List Nat → List Nat → Bool
  | [], _ => false
  | b :: rest, visited =>
      if hv : b ∈ visited then bfsLive cfg name rest visited
      else
        match hg : getBlock cfg b with
        | none => bfsLive cfg name rest (b :: visited)
        | some blk =>
            if blockLoads blk name then true
            else if blockStores blk name then bfsLive cfg name rest (b :: visited)
            else bfsLive cfg name (rest ++ blk.successors) (b :: visited)
termination_by q visited => (unvisitedCount cfg visited, q.length)
decreasing_by
  · exact Prod.Lex.right _ (Nat.lt_succ_self _)
  · rcases Nat.lt_or_ge (unvisitedCount cfg (b :: visited)) (unvisitedCount cfg visited) with h | h
    · exact Prod.Lex.left _ _ h
    · have heq : unvisitedCount cfg (b :: visited) = unvisitedCount cfg visited :=
        Nat.le_antisymm (unvisited_le_insert cfg visited b) h
      rw [heq]
      exact Prod.Lex.right _ (Nat.lt_succ_self _)
  · rcases getBlock_mem hg with ⟨hmem, hidx⟩
    exact Prod.Lex.left _ _ (unvisited_lt_insert cfg visited b blk hmem hidx hv)
  · rcases getBlock_mem hg with ⟨hmem, hidx⟩
    exact Prod.Lex.left _ _ (unvisited_lt_insert cfg visited b blk hmem hidx hv)

/-- `LivenessAnalysis::isLiveAtEnd`: false immediately for a block without
successors, otherwise run the worklist traversal from the successor list
with an empty visited set. -/
def isLiveAtEnd (cfg : CFG) (name : String) (block : CFGBlock) : Bool :=
  if block.successors.isEmpty then false
  else bfsLive cfg name block.successors []

/-! ## Definedness block transfer (`DefinednessVisitor`) -/

/-- A per-block definedness map, name to lattice value.  `Undefined` plays
the role of absence from the underlying hash map. -/
def DefMap : Type := String → DefinitionLevel

/-- `DefinednessVisitor::_doSet(const std::string&)`: set the name's status
to `Defined`. -/
def doSetStr (m : DefMap) (s : String) : DefMap :=
  fun n => if n = s then .Defined else m n

mutual
/-- `DefinednessVisitor::_doSet(AST*)`: a plain name target writes the
name; tuple targets recurse into each element; attribute and subscript
targets do not write a name.  Any other node kind is a fatal internal
error in the source (`ASSERT(0)`), unreachable for well-formed assignment
targets; it is modelled as a no-op. -/
def doSetT (m : DefMap) : AST → DefMap
  | .Attribute _ => m
  | .Name _ id => doSetStr m id
  | .Subscript _ _ => m
  | .Tuple elts => doSetTList m elts
  | _ => m

/-- Fold `doSetT` over a target list in order. -/
def doSetTList (m : DefMap) : List AST → DefMap
  | [] => m
  | t :: ts => doSetTList (doSetT m t) ts
end

/-- The name an import alias binds: the alias if present, otherwise the
imported name itself (`DefinednessVisitor::visit_import`). -/
def boundName (al : ImAlias) : String :=
  if al.asname ≠ "" then al.asname else al.name

/-- One step of `DefinednessVisitor` on a statement: class and function
definitions write their declared name, imports write each bound name,
assignments write each target; branches, expression statements, global
declarations, jumps, `pass`, `print` and `return` are transparent.
Sub-expressions are not descended into (each handler returns true). -/
def defVisitStmt (m : DefMap) : AST → DefMap
  | .ClassDef n => doSetStr m n
  | .FunctionDef n => doSetStr m n
  | .Import aliases => aliases.foldl (fun acc al => doSetStr acc (boundName al)) m
  | .Assign targets _ => doSetTList m targets
  | _ => m

/-- `DefinednessVisitor::visit_arguments`: the keyword catch-all (a name
node) if present, then the variadic name if nonempty, then every ordinary
parameter. -/
def defVisitArgs (m : DefMap) (a : Arguments) : DefMap :=
  let m1 := match a.kwarg with
    | some k => doSetT m k
    | none => m
  let m2 := if a.vararg ≠ "" then doSetStr m1 a.vararg else m1
  doSetTList m2 a.args

/-- `DefinednessBBAnalyzer::processBB`: run the visitor over the block's
statements in order, and for block 0 additionally over the parameter
list. -/
def processBlock (args : Option Arguments) (blk : CFGBlock) (m : DefMap) : DefMap :=
  let m1 := blk.body.foldl defVisitStmt m
  if blk.idx = 0 then
    match args with
    | some a => defVisitArgs m1 a
    | none => m1
  else m1

/-! ### Syntactic write sets

The names a transfer sets to `Defined`, collected syntactically; the
characterization lemmas below tie them to the visitor. -/

mutual
/-- Names written by `_doSet` on an assignment target. -/
def setNames : AST → List String
  | .Name _ id => [id]
  | .Tuple elts => setNamesList elts
  | _ => []

/-- Names written by `_doSet` on a target list. -/
def setNamesList : List AST → List String
  | [] => []
  | t :: ts => setNames t ++ setNamesList ts
end

/-- Names written by one statement under `DefinednessVisitor`. -/
def stmtWrites : AST → List String
  | .ClassDef n => [n]
  | .FunctionDef n => [n]
  | .Import aliases => aliases.map boundName
  | .Assign targets _ => setNamesList targets
  | _ => []

/-- Names written by the parameter list. -/
def argsWrites (a : Arguments) : List String :=
  (match a.kwarg with
    | some k => setNames k
    | none => []) ++
  (if a.vararg ≠ "" then [a.vararg] else []) ++
  setNamesList a.args

/-- Names written by a block's transfer (body writes, plus the parameter
writes for the entry block). -/
def blockWrites (args : Option Arguments) (blk : CFGBlock) : List String :=
  blk.body.flatMap stmtWrites ++
  (if blk.idx = 0 then
    match args with
    | some a => argsWrites a
    | none => []
  else [])

theorem doSetStr_apply (m : DefMap) (s : String) (n : String) :
    doSetStr m s n = if n = s then .Defined else m n := rfl

mutual
theorem doSetT_apply (m : DefMap) (t : AST) (n : String) :
    doSetT m t n = if n ∈ setNames t then .Defined else m n := by
  cases t with
  | Name ctx id => simp [doSetT, setNames, doSetStr]
  | Tuple elts => simp [doSetT, setNames]; exact doSetTList_apply m elts n
  | Attribute v => simp [doSetT, setNames]
  | Subscript v sl => simp [doSetT, setNames]
  | Num k => simp [doSetT, setNames]
  | ClassDef k => simp [doSetT, setNames]
  | FunctionDef k => simp [doSetT, setNames]
  | Import k => simp [doSetT, setNames]
  | Assign a b => simp [doSetT, setNames]
  | Expr v => simp [doSetT, setNames]
  | Branch v => simp [doSetT, setNames]
  | Jump => simp [doSetT, setNames]
  | Pass => simp [doSetT, setNames]
  | Return v => simp [doSetT, setNames]
  | Print v => simp [doSetT, setNames]
  | Global v => simp [doSetT, setNames]

theorem doSetTList_apply (m : DefMap) (ts : List AST) (n : String) :
    doSetTList m ts n = if n ∈ setNamesList ts then .Defined else m n := by
  cases ts with
  | nil => simp [doSetTList, setNamesList]
  | cons t ts =>
      rw [doSetTList, doSetTList_apply _ ts n, doSetT_apply m t n]
      simp [setNamesList, List.mem_append]
      by_cases h1 : n ∈ setNamesList ts <;> by_cases h2 : n ∈ setNames t <;>
        simp [h1, h2]
end

theorem imports_foldl_apply (m : DefMap) (aliases : List ImAlias) (n : String) :
    (aliases.foldl (fun acc al => doSetStr acc (boundName al)) m) n =
      if n ∈ aliases.map boundName then .Defined else m n := by
  induction aliases generalizing m with
  | nil => simp
  | cons al t ih =>
      rw [List.foldl_cons, ih]
      simp only [List.map_cons, List.mem_cons]
      by_cases h1 : n ∈ t.map boundName <;> by_cases h2 : n = boundName al <;>
        simp [h1, h2, doSetStr_apply]

theorem defVisitStmt_apply (m : DefMap) (t : AST) (n : String) :
    defVisitStmt m t n = if n ∈ stmtWrites t then .Defined else m n := by
  cases t with
  | ClassDef k => simp [defVisitStmt, stmtWrites, doSetStr_apply]
  | FunctionDef k => simp [defVisitStmt, stmtWrites, doSetStr_apply]
  | Import aliases =>
      simp only [defVisitStmt, stmtWrites]
      exact imports_foldl_apply m aliases n
  | Assign targets v =>
      simp only [defVisitStmt, stmtWrites]
      exact doSetTList_apply m targets n
  | Name a b => simp [defVisitStmt, stmtWrites]
  | Num k => simp [defVisitStmt, stmtWrites]
  | Attribute v => simp [defVisitStmt, stmtWrites]
  | Subscript a b => simp [defVisitStmt, stmtWrites]
  | Tuple v => simp [defVisitStmt, stmtWrites]
  | Expr v => simp [defVisitStmt, stmtWrites]
  | Branch v => simp [defVisitStmt, stmtWrites]
  | Jump => simp [defVisitStmt, stmtWrites]
  | Pass => simp [defVisitStmt, stmtWrites]
  | Return v => simp [defVisitStmt, stmtWrites]
  | Print v => simp [defVisitStmt, stmtWrites]
  | Global v => simp [defVisitStmt, stmtWrites]

theorem body_foldl_apply (m : DefMap) (body : List AST) (n : String) :
    (body.foldl defVisitStmt m) n =
      if n ∈ body.flatMap stmtWrites then .Defined else m n := by
  induction body generalizing m with
  | nil => simp
  | cons t ts ih =>
      rw [List.foldl_cons, ih]
      simp only [List.flatMap_cons, List.mem_append]
      by_cases h1 : n ∈ ts.flatMap stmtWrites <;> by_cases h2 : n ∈ stmtWrites t <;>
        simp [h1, h2, defVisitStmt_apply]

theorem defVisitArgs_apply (m : DefMap) (a : Arguments) (n : String) :
    defVisitArgs m a n = if n ∈ argsWrites a then .Defined else m n := by
  rcases a with ⟨args, vararg, kwarg⟩
  unfold defVisitArgs argsWrites
  rw [doSetTList_apply]
  cases kwarg with
  | none =>
      by_cases h2 : vararg = "" <;> by_cases h1 : n ∈ setNamesList args <;>
        by_cases h3 : n = vararg <;>
        simp_all [doSetStr_apply]
  | some k =>
      by_cases h2 : vararg = "" <;> by_cases h1 : n ∈ setNamesList args <;>
        by_cases h3 : n = vararg <;> by_cases h4 : n ∈ setNames k <;>
        simp_all [doSetStr_apply, doSetT_apply]

theorem processBlock_apply (args : Option Arguments) (blk : CFGBlock)
    (m : DefMap) (n : String) :
    processBlock args blk m n =
      if n ∈ blockWrites args blk then .Defined else m n := by
  unfold processBlock blockWrites
  by_cases h0 : blk.idx = 0
  · cases args with
    | none => simp [h0, body_foldl_apply]
    | some a =>
        simp only [h0, if_true, List.mem_append, defVisitArgs_apply,
          body_foldl_apply]
        by_cases h1 : n ∈ argsWrites a <;>
          by_cases h2 : n ∈ blk.body.flatMap stmtWrites <;> simp [h1, h2]
  · simp [h0, body_foldl_apply]

/-! ## Definedness fixed point (`DefinednessBBAnalyzer` and the engine)

The generic engine `computeFixedPoint` lives in `analysis/fpc.h`, which is
not among the sources.  Modelled from the spec: the engine iterates block
transfers forward, feeding each block's predecessors' exit states through
`merge` and `mergeBlank` to produce its entry state, repeating until no
block's result changes, and returns every block's entry mapping; a
not-yet-computed predecessor's contribution is seeded through `mergeBlank`.
Iteration is modelled as synchronous rounds from the all-absent state, run
for enough rounds that the set of present names stabilizes. -/

/-- `DefinednessBBAnalyzer::merge`: join of two already-computed values;
`PotentiallyDefined` if either argument is, else `Defined` (its assertions
require both arguments to differ from `Undefined`). -/
def merge (lhs rhs : DefinitionLevel) : DefinitionLevel :=
  if lhs = .PotentiallyDefined ∨ rhs = .PotentiallyDefined then
    .PotentiallyDefined
  else .Defined

/-- `DefinednessBBAnalyzer::mergeBlank`: the conservative contribution of a
predecessor that holds no value yet; always `PotentiallyDefined` (its
assertion requires the argument to differ from `Undefined`). -/
def mergeBlank (_ : DefinitionLevel) : DefinitionLevel :=
  .PotentiallyDefined

/-- Combine the per-predecessor exit values for one name, instrumented
with a flag that records whether `merge` or `mergeBlank` was ever handed an
`Undefined` argument (the condition their assertions rule out): fold
`merge` over the values that are present, then apply `mergeBlank` once if
any predecessor lacked the name.  No predecessor holding the name (or no
predecessor at all) yields `Undefined`, i.e. absence. -/
def combineChecked (vals : List DefinitionLevel) : DefinitionLevel × Bool :=
  match hp : vals.filter (fun v => v ≠ .Undefined) with
  | [] => (.Undefined, false)
  | v :: rest =>
      let folded := rest.foldl (fun acc w =>
        (merge w acc.1, acc.2 || (w = .Undefined || acc.1 = .Undefined))) (v, false)
      if (vals.filter (fun v => v ≠ .Undefined)).length = vals.length then folded
      else (mergeBlank folded.1, folded.2 || (folded.1 = .Undefined))

/-- The combined entry value for one name. -/
def combine (vals : List DefinitionLevel) : DefinitionLevel :=
  (combineChecked vals).1

/-- A whole engine state: entry map per block index. -/
def DefState : Type := Nat → DefMap

/-- The exit state of block `p` under entry states `s`: the block transfer
applied to its entry map (`Undefined` for an index with no block). -/
def exitAt (cfg : CFG) (args : Option Arguments) (s : DefState) (p : Nat)
    (n : String) : DefinitionLevel :=
  match getBlock cfg p with
  | none => .Undefined
  | some blk => processBlock args blk (s p) n

/-- One synchronous engine round: every block's entry map is recombined
from its predecessors' exit states. -/
def engineStep (cfg : CFG) (args : Option Arguments) (s : DefState) : DefState :=
  fun b n =>
    match getBlock cfg b with
    | none => .Undefined
    | some blk => combine (blk.predecessors.map (fun p => exitAt cfg args s p n))

/-- `r` engine rounds from the all-absent state. -/
def engineIter (cfg : CFG) (args : Option Arguments) : Nat → DefState
  | 0 => fun _ _ => .Undefined
  | r + 1 => engineStep cfg args (engineIter cfg args r)

/-- Every name any block transfer can write. -/
def allNames (cfg : CFG) (args : Option Arguments) : List String :=
  cfg.blocks.flatMap (blockWrites args)

/-- Enough rounds for the set of present (block, name) pairs to stabilize:
one more than its maximal cardinality. -/
def engineFuel (cfg : CFG) (args : Option Arguments) : Nat :=
  cfg.blocks.length * (allNames cfg args).length + 1

/-- The computed fixed point: the per-block entry maps of
`DefinednessAnalysis::results`. -/
def engineResults (cfg : CFG) (args : Option Arguments) : DefState :=
  engineIter cfg args (engineFuel cfg args)

/-- `DefinednessAnalysis::isDefinedAt`: the lattice value for the name at
the block's entry; `Undefined` when absent from the computed map. -/
def isDefinedAt (cfg : CFG) (args : Option Arguments) (name : String)
    (b : Nat) : DefinitionLevel :=
  engineResults cfg args b name

/-- The scope resolver, reduced to the one predicate the analysis queries:
`ScopeInfo::refersToGlobal`. -/
def ScopeInfo : Type := String → Bool

/-- `DefinednessAnalysis::getDefinedNamesAt`: the filtered required-name
set of a block — every name present in the block's entry map whose binding
the scope resolver does not report as global. -/
def getDefinedNamesAt (cfg : CFG) (args : Option Arguments)
    (scope : ScopeInfo) (b : Nat) : List String :=
  ((allNames cfg args).filter (fun n =>
    decide (engineResults cfg args b n ≠ .Undefined) && !scope n)).dedup

/-! ## Phi-requirement analysis (`PhiAnalysis`) -/

/-- The liveness filter of the `PhiAnalysis` constructor: is the name live
at the end of the block's first predecessor? -/
def livePred0 (cfg : CFG) (blk : CFGBlock) (n : String) : Bool :=
  match blk.predecessors.head? with
  | none => false
  | some p0 =>
      match getBlock cfg p0 with
      | none => false
      | some pb => isLiveAtEnd cfg n pb

/-- The `PhiAnalysis` constructor: for every block with at least two
predecessors, record the subset of its filtered required-name set that is
live out of its first predecessor; blocks with fewer than two
predecessors get no entry. -/
def requiredPhis (cfg : CFG) (args : Option Arguments) (scope : ScopeInfo) :
    List (Nat × List String) :=
  cfg.blocks.filterMap (fun blk =>
    if 2 ≤ blk.predecessors.length then
      some (blk.idx,
        (getDefinedNamesAt cfg args scope blk.idx).filter
          (fun n => livePred0 cfg blk n))
    else none)

/-- Look up a block's required-phi set; `none` when the constructor
recorded no entry for it. -/
def lookupPhis (cfg : CFG) (args : Option Arguments) (scope : ScopeInfo)
    (b : Nat) : Option (List String) :=
  ((requiredPhis cfg args scope).find? (fun e => e.1 == b)).map (fun e => e.2)

/-- `PhiAnalysis::isRequired`: membership in the block's required-phi set
(an absent entry behaves as the empty set, as `operator[]`
default-constructs one). -/
def isRequired (cfg : CFG) (args : Option Arguments) (scope : ScopeInfo)
    (name : String) (b : Nat) : Bool :=
  match lookupPhis cfg args scope b with
  | none => false
  | some l => l.contains name

/-- `PhiAnalysis::isRequiredAfter`: false unless the block has exactly one
successor, in which case it delegates to `isRequired` at that successor. -/
def isRequiredAfter (cfg : CFG) (args : Option Arguments) (scope : ScopeInfo)
    (name : String) (blk : CFGBlock) : Bool :=
  match blk.successors with
  | [s] => isRequired cfg args scope name s
  | _ => false

/-- `PhiAnalysis::getAllRequiredAfter`: the empty set for a block without
successors, otherwise the required-phi set of its first successor (absent
entries behave as empty). -/
def getAllRequiredAfter (cfg : CFG) (args : Option Arguments)
    (scope : ScopeInfo) (blk : CFGBlock) : List String :=
  match blk.successors with
  | [] => []
  | s :: _ => (lookupPhis cfg args scope s).getD []

/-- `PhiAnalysis::getAllDefinedAt`: passthrough to `getDefinedNamesAt`. -/
def getAllDefinedAt (cfg : CFG) (args : Option Arguments) (scope : ScopeInfo)
    (blk : CFGBlock) : List String :=
  getDefinedNamesAt cfg args scope blk.idx

/-- `PhiAnalysis::isPotentiallyUndefinedAfter`: the two assertions (at
least one successor; a recorded definedness at the first successor) are
modelled as `none`; otherwise true exactly for `PotentiallyDefined`. -/
def isPotentiallyUndefinedAfter (cfg : CFG) (args : Option Arguments)
    (name : String) (blk : CFGBlock) : Option Bool :=
  match blk.successors with
  | [] => none
  | s :: _ =>
      match isDefinedAt cfg args name s with
      | .Undefined => none
      | d => some (d = .PotentiallyDefined)

/-! ## Properties of `merge`, `mergeBlank` and `combine` -/

theorem merge_ne_undefined (a b : DefinitionLevel) : merge a b ≠ .Undefined := by
  unfold merge
  split <;> simp

theorem merge_eq_defined_iff (a b : DefinitionLevel) :
    merge a b = .Defined ↔
      (a ≠ .PotentiallyDefined ∧ b ≠ .PotentiallyDefined) := by
  unfold merge
  split <;> rename_i h <;> simp <;> tauto

/-- The accumulator invariant of the merge fold inside `combineChecked`:
folding over values that are never `Undefined` from a never-`Undefined`
accumulator keeps the value away from `Undefined`, never raises the
assertion flag, and computes the join. -/
theorem mergeFold_spec (l : List DefinitionLevel) (acc : DefinitionLevel × Bool)
    (hacc : acc.1 ≠ .Undefined) (hflag : acc.2 = false)
    (hl : ∀ w ∈ l, w ≠ .Undefined) :
    let r := l.foldl (fun acc w =>
      (merge w acc.1, acc.2 || (w = .Undefined || acc.1 = .Undefined))) acc
    r.1 ≠ .Undefined ∧ r.2 = false ∧
      (r.1 = .Defined ↔ (acc.1 = .Defined ∧ ∀ w ∈ l, w = .Defined)) := by
  induction l generalizing acc with
  | nil =>
      refine ⟨hacc, hflag, ?_⟩
      constructor
      · intro h; exact ⟨h, by simp⟩
      · intro h; exact h.1
  | cons w t ih =>
      have hw : w ≠ .Undefined := hl w (by simp)
      have hrec := ih (merge w acc.1, false) (merge_ne_undefined w acc.1) rfl
        (fun x hx => hl x (by simp [hx]))
      simp only [List.foldl_cons]
      have hinit : (merge w acc.1,
          acc.2 || (decide (w = DefinitionLevel.Undefined)
            || decide (acc.1 = DefinitionLevel.Undefined))) = (merge w acc.1, false) := by
        have h1 : (decide (w = DefinitionLevel.Undefined)) = false := by
          simpa using hw
        have h2 : (decide (acc.1 = DefinitionLevel.Undefined)) = false := by
          simpa using hacc
        simp [hflag, h1, h2]
      rw [hinit]
      refine ⟨hrec.1, hrec.2.1, ?_⟩
      rw [hrec.2.2]
      constructor
      · rintro ⟨hm, hall⟩
        rcases (merge_eq_defined_iff w acc.1).mp hm with ⟨hwp, hap⟩
        have haccD : acc.1 = .Defined := by
          cases h : acc.1 with
          | Undefined => exact absurd h hacc
          | PotentiallyDefined => exact absurd h hap
          | Defined => rfl
        have hwD : w = .Defined := by
          cases h : w with
          | Undefined => exact absurd h hw
          | PotentiallyDefined => exact absurd h hwp
          | Defined => rfl
        exact ⟨haccD, fun x hx => by
          rcases List.mem_cons.mp hx with rfl | hxt
          · exact hwD
          · exact hall x hxt⟩
      · rintro ⟨haccD, hall⟩
        have hwD : w = .Defined := hall w (by simp)
        refine ⟨?_, fun x hx => hall x (by simp [hx])⟩
        rw [hwD, haccD]
        rfl

/-- The assertion inside `merge` and `mergeBlank` can never fire while
combining predecessor contributions: `Undefined` is filtered out before the
merge fold, and `merge` itself never produces `Undefined`. -/
theorem combineChecked_flag (vals : List DefinitionLevel) :
    (combineChecked vals).2 = false := by
  unfold combineChecked
  split
  · rfl
  · rename_i v rest hp
    have hmem : ∀ w ∈ v :: rest, w ≠ .Undefined := by
      intro w hw
      have : w ∈ vals.filter (fun v => v ≠ .Undefined) := by
        rw [hp]; exact hw
      have := List.of_mem_filter this
      simpa using this
    have hspec := mergeFold_spec rest (v, false) (hmem v (by simp)) rfl
      (fun x hx => hmem x (by simp [hx]))
    split
    · exact hspec.2.1
    · simp only []
      rw [hspec.2.1]
      have h1 : (decide ((rest.foldl (fun acc w =>
          (merge w acc.1, acc.2 || (w = .Undefined || acc.1 = .Undefined)))
          (v, false)).1 = DefinitionLevel.Undefined)) = false := by
        simpa using hspec.1
      simp [h1]

theorem combine_eq_undefined_iff (vals : List DefinitionLevel) :
    combine vals = .Undefined ↔ ∀ v ∈ vals, v = .Undefined := by
  unfold combine combineChecked
  split
  · rename_i hp
    simp only [true_iff]
    intro v hv
    by_contra hne
    have : v ∈ vals.filter (fun v => v ≠ .Undefined) :=
      List.mem_filter.mpr ⟨hv, by simpa using hne⟩
    rw [hp] at this
    cases this
  · rename_i v rest hp
    have hvmem : v ∈ vals.filter (fun v => v ≠ .Undefined) := by
      rw [hp]; simp
    have hvne : v ≠ .Undefined := by
      have := List.of_mem_filter hvmem
      simpa using this
    have hvval : v ∈ vals := List.mem_of_mem_filter hvmem
    have hmem : ∀ w ∈ v :: rest, w ≠ .Undefined := by
      intro w hw
      have : w ∈ vals.filter (fun x => x ≠ .Undefined) := by
        rw [hp]; exact hw
      have := List.of_mem_filter this
      simpa using this
    have hspec := mergeFold_spec rest (v, false) hvne rfl
      (fun x hx => hmem x (by simp [hx]))
    constructor
    · intro h
      exfalso
      split at h
      · exact hspec.1 h
      · exact absurd h (by simp [mergeBlank])
    · intro h
      exact absurd (h v hvval) hvne

theorem combine_eq_defined_iff (vals : List DefinitionLevel) :
    combine vals = .Defined ↔ (vals ≠ [] ∧ ∀ v ∈ vals, v = .Defined) := by
  unfold combine combineChecked
  split
  · rename_i hp
    constructor
    · intro h; cases h
    · rintro ⟨hne, hall⟩
      exfalso
      rcases List.exists_mem_of_ne_nil vals hne with ⟨v, hv⟩
      have hvD := hall v hv
      have : v ∈ vals.filter (fun x => x ≠ .Undefined) :=
        List.mem_filter.mpr ⟨hv, by simp [hvD]⟩
      rw [hp] at this
      cases this
  · rename_i v rest hp
    have hvmem : v ∈ vals.filter (fun x => x ≠ .Undefined) := by
      rw [hp]; simp
    have hvne : v ≠ .Undefined := by
      have := List.of_mem_filter hvmem
      simpa using this
    have hmem : ∀ w ∈ v :: rest, w ≠ .Undefined := by
      intro w hw
      have : w ∈ vals.filter (fun x => x ≠ .Undefined) := by
        rw [hp]; exact hw
      have := List.of_mem_filter this
      simpa using this
    have hspec := mergeFold_spec rest (v, false) hvne rfl
      (fun x hx => hmem x (by simp [hx]))
    have hvals_ne : vals ≠ [] := by
      intro h
      rw [h] at hp
      cases hp
    split
    · rename_i hlen
      -- no blanks: every value of vals is in the filtered list
      have hfall : ∀ w ∈ vals, w ≠ .Undefined := by
        have := (List.filter_length_eq_length
          (p := fun x => decide (x ≠ DefinitionLevel.Undefined)) (l := vals)).mp hlen
        intro w hw
        have := this w hw
        simpa using this
      have hsplit : ∀ w ∈ vals, w ∈ v :: rest := by
        intro w hw
        rw [← hp]
        exact List.mem_filter.mpr ⟨hw, by simpa using hfall w hw⟩
      rw [hspec.2.2]
      constructor
      · rintro ⟨hvD, hall⟩
        refine ⟨hvals_ne, fun w hw => ?_⟩
        rcases List.mem_cons.mp (hsplit w hw) with rfl | hwr
        · exact hvD
        · exact hall w hwr
      · rintro ⟨_, hall⟩
        have hallf : ∀ w ∈ v :: rest, w = .Defined := by
          intro w hw
          have : w ∈ vals.filter (fun x => x ≠ .Undefined) := by
            rw [hp]; exact hw
          exact hall w (List.mem_of_mem_filter this)
        exact ⟨hallf v (by simp), fun w hw => hallf w (by simp [hw])⟩
    · rename_i hlen
      constructor
      · intro h
        exact absurd h (by simp [mergeBlank])
      · rintro ⟨_, hall⟩
        exfalso
        apply hlen
        rw [List.filter_length_eq_length]
        intro w hw
        simp [hall w hw]

theorem combine_ne_undefined_iff (vals : List DefinitionLevel) :
    combine vals ≠ .Undefined ↔ ∃ v ∈ vals, v ≠ .Undefined := by
  rw [ne_eq, combine_eq_undefined_iff]
  push_neg
  rfl

/-! ## Looking up required-phi entries -/

theorem find_filterMap_key {l : List CFGBlock}
    {g : CFGBlock → Option (Nat × List String)}
    (hkey : ∀ b e, g b = some e → e.1 = b.idx)
    (hnodup : (l.map CFGBlock.idx).Nodup)
    {blk : CFGBlock} (hmem : blk ∈ l) :
    (l.filterMap g).find? (fun e => e.1 == blk.idx) = g blk := by
  induction l with
  | nil => cases hmem
  | cons b t ih =>
      rw [List.map_cons, List.nodup_cons] at hnodup
      have hentry_key : ∀ e ∈ t.filterMap g, e.1 ∈ t.map CFGBlock.idx := by
        intro e he
        rcases List.mem_filterMap.mp he with ⟨c, hc, hgc⟩
        exact List.mem_map.mpr ⟨c, hc, (hkey c e hgc).symm⟩
      rcases List.mem_cons.mp hmem with rfl | hmt
      · cases hg : g blk with
        | some e =>
            have he1 : e.1 = blk.idx := hkey blk e hg
            simp [List.filterMap_cons, hg, List.find?, he1]
        | none =>
            simp only [List.filterMap_cons, hg]
            apply List.find?_eq_none.mpr
            intro e he
            have : e.1 ∈ t.map CFGBlock.idx := hentry_key e he
            have hne : e.1 ≠ blk.idx := fun h => hnodup.1 (h ▸ this)
            simpa using hne
      · have hne : b.idx ≠ blk.idx := by
          intro h
          exact hnodup.1 (h ▸ List.mem_map.mpr ⟨blk, hmt, rfl⟩)
        cases hg : g b with
        | some e =>
            have he1 : e.1 = b.idx := hkey b e hg
            have hpred : (e.1 == blk.idx) = false := by
              simp [he1, hne]
            simp only [List.filterMap_cons, hg, List.find?, hpred]
            exact ih hnodup.2 hmt
        | none =>
            simp only [List.filterMap_cons, hg]
            exact ih hnodup.2 hmt

/-- The `PhiAnalysis` construction, characterized per block: a block with
two or more predecessors gets exactly the liveness-filtered required-name
set; any other block gets no entry. -/
theorem lookupPhis_spec (cfg : CFG) (args : Option Arguments)
    (scope : ScopeInfo) (hnodup : (cfg.blocks.map CFGBlock.idx).Nodup)
    {blk : CFGBlock} (hmem : blk ∈ cfg.blocks) :
    lookupPhis cfg args scope blk.idx =
      if 2 ≤ blk.predecessors.length then
        some ((getDefinedNamesAt cfg args scope blk.idx).filter
          (fun n => livePred0 cfg blk n))
      else none := by
  unfold lookupPhis requiredPhis
  rw [find_filterMap_key ?_ hnodup hmem]
  · split <;> simp
  · intro b e hg
    split at hg
    · cases hg
      rfl
    · cases hg

/-- Every index that `lookupPhis` knows belongs to a block of the graph
with at least two predecessors. -/
theorem lookupPhis_some_sound (cfg : CFG) (args : Option Arguments)
    (scope : ScopeInfo) {b : Nat} {l : List String}
    (h : lookupPhis cfg args scope b = some l) :
    ∃ blk ∈ cfg.blocks, blk.idx = b ∧ 2 ≤ blk.predecessors.length ∧
      l = (getDefinedNamesAt cfg args scope b).filter
        (fun n => livePred0 cfg blk n) := by
  unfold lookupPhis requiredPhis at h
  rcases Option.map_eq_some'.mp h with ⟨e, hfind, hsnd⟩
  have hmem := List.mem_of_find?_eq_some hfind
  have hpred := List.find?_some hfind
  rcases List.mem_filterMap.mp hmem with ⟨blk, hblk, hg⟩
  split at hg
  · rename_i h2
    cases hg
    refine ⟨blk, hblk, ?_, h2, ?_⟩
    · simpa using hpred
    · have : blk.idx = b := by simpa using hpred
      rw [← hsnd, ← this]
  · cases hg

/-! ## Example graphs -/

/-- Straight line: block 0 assigns `x`, then blocks 1 and 2. -/
def exStraight : CFG := ⟨[
  ⟨0, [.Assign [.Name .Store "x"] (.Num 1)], [], [1]⟩,
  ⟨1, [], [0], [2]⟩,
  ⟨2, [], [1], []⟩]⟩

/-- Block 0 assigns `x` and falls into block 1, which loops to itself:
every path from the entry to block 1 passes the assignment. -/
def exSelfLoop : CFG := ⟨[
  ⟨0, [.Assign [.Name .Store "x"] (.Num 1)], [], [1]⟩,
  ⟨1, [], [0, 1], [1]⟩]⟩

/-- Block 1 contains `import m`; block 2 reads `m`. -/
def exImportLive : CFG := ⟨[
  ⟨0, [], [], [1]⟩,
  ⟨1, [.Import [⟨"m", ""⟩]], [0], [2]⟩,
  ⟨2, [.Expr (.Name .Load "m")], [1], []⟩]⟩

/-- Block 0 assigns `x` and branches to blocks 1 and 2; block 1 is a merge
block (predecessors 0 and 2) that reads `x`. -/
def exPhi : CFG := ⟨[
  ⟨0, [.Assign [.Name .Store "x"] (.Num 1)], [], [1, 2]⟩,
  ⟨1, [.Expr (.Name .Load "x")], [0, 2], []⟩,
  ⟨2, [], [0], [1]⟩]⟩

/-- A scope resolver that reports no name as global. -/
def noGlobal : ScopeInfo := fun _ => false

/-- A scope resolver that reports exactly `g` as global. -/
def exScope : ScopeInfo := fun n => n == "g"

/-! ## C7 -/

/-- C7: during the definedness fixed-point computation `Undefined` is never
passed as an argument to `merge` or to `mergeBlank` (the instrumentation
flag of `combineChecked`, which records exactly the condition the two
assertions rule out, is false on every argument list); on
non-`Undefined` arguments `merge` returns `PotentiallyDefined` iff either
argument is `PotentiallyDefined` and `Defined` otherwise; and `mergeBlank`
always returns `PotentiallyDefined`. -/
theorem c7_merge_mergeBlank_lattice :
    (∀ a b : DefinitionLevel, a ≠ .Undefined → b ≠ .Undefined →
      ((merge a b = .PotentiallyDefined ↔
          (a = .PotentiallyDefined ∨ b = .PotentiallyDefined)) ∧
        (merge a b = .Defined ↔
          (a ≠ .PotentiallyDefined ∧ b ≠ .PotentiallyDefined))))
  ∧ (∀ v : DefinitionLevel, mergeBlank v = .PotentiallyDefined)
  ∧ (∀ vals : List DefinitionLevel, (combineChecked vals).2 = false) := by
  refine ⟨?_, fun _ => rfl, combineChecked_flag⟩
  intro a b _ _
  constructor
  · unfold merge
    split <;> rename_i h <;> simp <;> tauto
  · exact merge_eq_defined_iff a b

theorem c7_witness :
    merge .Defined .PotentiallyDefined = .PotentiallyDefined
  ∧ mergeBlank .Defined = .PotentiallyDefined
  ∧ (combineChecked [.Defined, .Undefined]).2 = false := by
  refine ⟨?_, c7_merge_mergeBlank_lattice.2.1 .Defined,
    c7_merge_mergeBlank_lattice.2.2 [.Defined, .Undefined]⟩
  exact ((c7_merge_mergeBlank_lattice.1 .Defined .PotentiallyDefined
    (by decide) (by decide)).1).mpr (Or.inr rfl)

/-! ## C8 -/

/-- C8: `isPotentiallyUndefinedAfter` fails its assertions (modelled as
`none`) when the block has no successor or when the definedness level of
the name at the first successor is `Undefined`; otherwise it returns true
iff that level is `PotentiallyDefined`.  (The model is a pure function of
the computed analysis, so no analysis state changes.) -/
theorem c8_isPotentiallyUndefinedAfter (cfg : CFG) (args : Option Arguments)
    (name : String) (blk : CFGBlock) :
    (blk.successors = [] →
      isPotentiallyUndefinedAfter cfg args name blk = none)
  ∧ (∀ s rest, blk.successors = s :: rest →
      ((isDefinedAt cfg args name s = .Undefined →
          isPotentiallyUndefinedAfter cfg args name blk = none)
        ∧ (isDefinedAt cfg args name s ≠ .Undefined →
          isPotentiallyUndefinedAfter cfg args name blk
            = some (decide (isDefinedAt cfg args name s
                = .PotentiallyDefined))))) := by
  constructor
  · intro h
    unfold isPotentiallyUndefinedAfter
    rw [h]
  · intro s rest heq
    constructor
    · intro hu
      unfold isPotentiallyUndefinedAfter
      rw [heq]
      simp only [hu]
    · intro hne
      unfold isPotentiallyUndefinedAfter
      rw [heq]
      cases h : isDefinedAt cfg args name s with
      | Undefined => exact absurd h hne
      | PotentiallyDefined => simp [h]
      | Defined => simp [h]

theorem c8_witness :
    isPotentiallyUndefinedAfter exStraight none "x" ⟨2, [], [1], []⟩ = none
  ∧ isPotentiallyUndefinedAfter exStraight none "x" ⟨1, [], [0], [2]⟩
      = some false := by
  constructor
  · exact (c8_isPotentiallyUndefinedAfter exStraight none "x"
      ⟨2, [], [1], []⟩).1 rfl
  · have h := ((c8_isPotentiallyUndefinedAfter exStraight none "x"
      ⟨1, [], [0], [2]⟩).2 2 [] rfl).2 (by decide)
    rw [h]
    decide

/-! ## C9 -/

/-- C9: a name the scope resolver reports as global never appears in
`getDefinedNamesAt`, in `getAllDefinedAt`, or in any block's required-phi
set, and `isRequired` is false for it at every block. -/
theorem c9_global_exclusion (cfg : CFG) (args : Option Arguments)
    (scope : ScopeInfo) (b : Nat) (n : String) (hg : scope n = true) :
    n ∉ getDefinedNamesAt cfg args scope b
  ∧ (∀ blk : CFGBlock, n ∉ getAllDefinedAt cfg args scope blk)
  ∧ (∀ e ∈ requiredPhis cfg args scope, n ∉ e.2)
  ∧ (∀ b2 : Nat, isRequired cfg args scope n b2 = false) := by
  have hnot : ∀ b2 : Nat, n ∉ getDefinedNamesAt cfg args scope b2 := by
    intro b2 hmem
    unfold getDefinedNamesAt at hmem
    rw [List.mem_dedup] at hmem
    have := List.of_mem_filter hmem
    rw [Bool.and_eq_true] at this
    rw [hg] at this
    simp at this
  have hphi : ∀ e ∈ requiredPhis cfg args scope, n ∉ e.2 := by
    intro e he hmem
    unfold requiredPhis at he
    rcases List.mem_filterMap.mp he with ⟨blk, _, hg2⟩
    split at hg2
    · cases hg2
      exact hnot blk.idx (List.mem_of_mem_filter hmem)
    · cases hg2
  refine ⟨hnot b, fun blk => hnot blk.idx, hphi, ?_⟩
  intro b2
  unfold isRequired
  cases h : lookupPhis cfg args scope b2 with
  | none => rfl
  | some l =>
      simp only []
      rcases Option.map_eq_some'.mp h with ⟨e, hfind, hsnd⟩
      have hmem := List.mem_of_find?_eq_some hfind
      have := hphi e hmem
      rw [hsnd] at this
      simpa using this

theorem c9_witness :
    "g" ∉ getDefinedNamesAt exPhi none exScope 1
  ∧ isRequired exPhi none exScope "g" 1 = false :=
  ⟨(c9_global_exclusion exPhi none exScope 1 "g" (by decide)).1,
   (c9_global_exclusion exPhi none exScope 1 "g" (by decide)).2.2.2 1⟩

/-! ## C4 -/

/-- `DefinednessVisitor::visit_import` binds `std::string &name =
alias->name` and then executes `name = alias->asname` whenever an alias is
present — assigning through the reference and thereby overwriting the
`name` field of the `AST_alias` node of the caller-supplied graph.  This
function is the resulting alias-node transformation. -/
def visitImportAliasMut (al : ImAlias) : ImAlias :=
  if al.asname ≠ "" then { al with name := al.asname } else al

/-- The effect of one `DefinednessVisitor` visit on the statement node
itself: import statements have their alias nodes rewritten as above; every
other statement is left untouched. -/
def defVisitStmtAst : AST → AST
  | .Import aliases => .Import (aliases.map visitImportAliasMut)
  | t => t

/-- C4 (refuted by the code): running the definedness transfer over a
block containing `import x as y` rewrites the statement's alias node from
`(x, y)` to `(y, y)` — the caller-supplied syntax tree is mutated, contrary
to the claim that the graph is treated as immutable input. -/
theorem c4_import_mutation :
    visitImportAliasMut ⟨"x", "y"⟩ = ⟨"y", "y"⟩
  ∧ defVisitStmtAst (.Import [⟨"x", "y"⟩]) ≠ .Import [⟨"x", "y"⟩] := by
  constructor
  · decide
  · intro h
    have h2 : ([⟨"y", "y"⟩] : List ImAlias) = [⟨"x", "y"⟩] := by
      have : defVisitStmtAst (.Import [⟨"x", "y"⟩])
          = .Import [⟨"y", "y"⟩] := rfl
      rw [this] at h
      injection h
    exact absurd h2 (by decide)

/-! ## C6 -/

theorem doLoad_pres_read {name : String} {s : LiveState} (x : String)
    (h1 : name ∈ s.loads) (h2 : name ∉ s.stores) :
    name ∈ (doLoad s x).loads ∧ name ∉ (doLoad s x).stores := by
  unfold doLoad
  split
  · exact ⟨h1, h2⟩
  · exact ⟨List.mem_cons_of_mem x h1, h2⟩

theorem doStore_pres_read {name : String} {s : LiveState} (x : String)
    (h1 : name ∈ s.loads) (h2 : name ∉ s.stores) :
    name ∈ (doStore s x).loads ∧ name ∉ (doStore s x).stores := by
  unfold doStore
  split
  · exact ⟨h1, h2⟩
  · rename_i hx
    refine ⟨h1, ?_⟩
    intro hmem
    rcases List.mem_cons.mp hmem with rfl | hmem2
    · exact hx h1
    · exact h2 hmem2

theorem doLoad_pres_write {name : String} {s : LiveState} (x : String)
    (h1 : name ∈ s.stores) (h2 : name ∉ s.loads) :
    name ∈ (doLoad s x).stores ∧ name ∉ (doLoad s x).loads := by
  unfold doLoad
  split
  · exact ⟨h1, h2⟩
  · rename_i hx
    refine ⟨h1, ?_⟩
    intro hmem
    rcases List.mem_cons.mp hmem with rfl | hmem2
    · exact hx h1
    · exact h2 hmem2

theorem doStore_pres_write {name : String} {s : LiveState} (x : String)
    (h1 : name ∈ s.stores) (h2 : name ∉ s.loads) :
    name ∈ (doStore s x).stores ∧ name ∉ (doStore s x).loads := by
  unfold doStore
  split
  · exact ⟨h1, h2⟩
  · exact ⟨List.mem_cons_of_mem x h1, h2⟩

mutual
theorem liveVisit_pres_read (name : String) (t : AST) (s : LiveState)
    (h1 : name ∈ s.loads) (h2 : name ∉ s.stores) :
    name ∈ (livenessVisit s t).loads ∧ name ∉ (livenessVisit s t).stores := by
  cases t with
  | Name ctx id =>
      cases ctx with
      | Load => exact doLoad_pres_read id h1 h2
      | Store => exact doStore_pres_read id h1 h2
  | Num k => exact ⟨h1, h2⟩
  | ClassDef n => exact doStore_pres_read n h1 h2
  | FunctionDef n => exact doStore_pres_read n h1 h2
  | Import al => exact ⟨h1, h2⟩
  | Assign targets value =>
      have hv := liveVisit_pres_read name value s h1 h2
      exact liveVisitList_pres_read name targets _ hv.1 hv.2
  | Attribute v => exact liveVisit_pres_read name v s h1 h2
  | Subscript v sl =>
      have hv := liveVisit_pres_read name v s h1 h2
      exact liveVisit_pres_read name sl _ hv.1 hv.2
  | Tuple elts => exact liveVisitList_pres_read name elts s h1 h2
  | Expr v => exact liveVisit_pres_read name v s h1 h2
  | Branch v => exact liveVisit_pres_read name v s h1 h2
  | Jump => exact ⟨h1, h2⟩
  | Pass => exact ⟨h1, h2⟩
  | Return v =>
      cases v with
      | some e => exact liveVisit_pres_read name e s h1 h2
      | none => exact ⟨h1, h2⟩
  | Print vs => exact liveVisitList_pres_read name vs s h1 h2
  | Global g => exact ⟨h1, h2⟩

theorem liveVisitList_pres_read (name : String) (l : List AST) (s : LiveState)
    (h1 : name ∈ s.loads) (h2 : name ∉ s.stores) :
    name ∈ (livenessVisitList s l).loads
      ∧ name ∉ (livenessVisitList s l).stores := by
  cases l with
  | nil => exact ⟨h1, h2⟩
  | cons t ts =>
      have ht := liveVisit_pres_read name t s h1 h2
      exact liveVisitList_pres_read name ts _ ht.1 ht.2
end

mutual
theorem liveVisit_pres_write (name : String) (t : AST) (s : LiveState)
    (h1 : name ∈ s.stores) (h2 : name ∉ s.loads) :
    name ∈ (livenessVisit s t).stores ∧ name ∉ (livenessVisit s t).loads := by
  cases t with
  | Name ctx id =>
      cases ctx with
      | Load => exact doLoad_pres_write id h1 h2
      | Store => exact doStore_pres_write id h1 h2
  | Num k => exact ⟨h1, h2⟩
  | ClassDef n => exact doStore_pres_write n h1 h2
  | FunctionDef n => exact doStore_pres_write n h1 h2
  | Import al => exact ⟨h1, h2⟩
  | Assign targets value =>
      have hv := liveVisit_pres_write name value s h1 h2
      exact liveVisitList_pres_write name targets _ hv.1 hv.2
  | Attribute v => exact liveVisit_pres_write name v s h1 h2
  | Subscript v sl =>
      have hv := liveVisit_pres_write name v s h1 h2
      exact liveVisit_pres_write name sl _ hv.1 hv.2
  | Tuple elts => exact liveVisitList_pres_write name elts s h1 h2
  | Expr v => exact liveVisit_pres_write name v s h1 h2
  | Branch v => exact liveVisit_pres_write name v s h1 h2
  | Jump => exact ⟨h1, h2⟩
  | Pass => exact ⟨h1, h2⟩
  | Return v =>
      cases v with
      | some e => exact liveVisit_pres_write name e s h1 h2
      | none => exact ⟨h1, h2⟩
  | Print vs => exact liveVisitList_pres_write name vs s h1 h2
  | Global g => exact ⟨h1, h2⟩

theorem liveVisitList_pres_write (name : String) (l : List AST) (s : LiveState)
    (h1 : name ∈ s.stores) (h2 : name ∉ s.loads) :
    name ∈ (livenessVisitList s l).stores
      ∧ name ∉ (livenessVisitList s l).loads := by
  cases l with
  | nil => exact ⟨h1, h2⟩
  | cons t ts =>
      have ht := liveVisit_pres_write name t s h1 h2
      exact liveVisitList_pres_write name ts _ ht.1 ht.2
end

/-- C6: within one block's classification pass, once a name is recorded as
read, no later statement of the block records it as written (and the read
stays recorded); once recorded as written, no later statement records it
as read (and the write stays recorded).  In particular a read followed by
an assignment in the same block leaves the read recorded. -/
theorem c6_read_write_exclusivity (name : String) (l : List AST)
    (s : LiveState) :
    (name ∈ s.loads → name ∉ s.stores →
      name ∈ (livenessVisitList s l).loads
        ∧ name ∉ (livenessVisitList s l).stores)
  ∧ (name ∈ s.stores → name ∉ s.loads →
      name ∈ (livenessVisitList s l).stores
        ∧ name ∉ (livenessVisitList s l).loads) :=
  ⟨fun h1 h2 => liveVisitList_pres_read name l s h1 h2,
   fun h1 h2 => liveVisitList_pres_write name l s h1 h2⟩

theorem c6_witness :
    "x" ∈ (livenessVisitList (livenessVisitList ⟨[], []⟩
        [.Expr (.Name .Load "x")])
        [.Assign [.Name .Store "x"] (.Num 1)]).loads
  ∧ "x" ∉ (livenessVisitList (livenessVisitList ⟨[], []⟩
        [.Expr (.Name .Load "x")])
        [.Assign [.Name .Store "x"] (.Num 1)]).stores :=
  (c6_read_write_exclusivity "x" [.Assign [.Name .Store "x"] (.Num 1)]
    (livenessVisitList ⟨[], []⟩ [.Expr (.Name .Load "x")])).1
    (by decide) (by decide)

/-! ## C5 -/

/-- C5: for every block with two or more predecessors, a name is in the
block's required-phi set iff it is in the block's filtered required-name
set and is live at the end of the block's first predecessor; a block with
fewer than two predecessors gets no required-phi entry. -/
theorem c5_required_phi_rule (cfg : CFG) (args : Option Arguments)
    (scope : ScopeInfo) (hnodup : (cfg.blocks.map CFGBlock.idx).Nodup)
    (blk : CFGBlock) (hmem : blk ∈ cfg.blocks) (name : String) :
    (2 ≤ blk.predecessors.length →
      ∀ (p0 : Nat) (pblk : CFGBlock),
        blk.predecessors.head? = some p0 →
        getBlock cfg p0 = some pblk →
        (isRequired cfg args scope name blk.idx = true ↔
          (name ∈ getDefinedNamesAt cfg args scope blk.idx ∧
            isLiveAtEnd cfg name pblk = true)))
  ∧ (blk.predecessors.length < 2 →
      lookupPhis cfg args scope blk.idx = none) := by
  have hspec := lookupPhis_spec cfg args scope hnodup hmem
  constructor
  · intro h2 p0 pblk hp0 hpblk
    rw [if_pos h2] at hspec
    unfold isRequired
    rw [hspec]
    simp only [List.elem_iff, List.mem_filter]
    unfold livePred0
    simp only [hp0, hpblk]
  · intro h2
    rw [if_neg (by omega)] at hspec
    exact hspec

theorem c5_witness :
    (isRequired exPhi none noGlobal "x" 1 = true ↔
      ("x" ∈ getDefinedNamesAt exPhi none noGlobal 1 ∧
        isLiveAtEnd exPhi "x" ⟨0, [.Assign [.Name .Store "x"] (.Num 1)],
          [], [1, 2]⟩ = true))
  ∧ lookupPhis exPhi none noGlobal 0 = none :=
  ⟨(c5_required_phi_rule exPhi none noGlobal (by decide)
      ⟨1, [.Expr (.Name .Load "x")], [0, 2], []⟩
      (List.mem_cons_of_mem _ (List.mem_cons_self _ _)) "x").1 (by decide) 0
      ⟨0, [.Assign [.Name .Store "x"] (.Num 1)], [], [1, 2]⟩ rfl rfl,
   (c5_required_phi_rule exPhi none noGlobal (by decide)
      ⟨0, [.Assign [.Name .Store "x"] (.Num 1)], [], [1, 2]⟩
      (List.mem_cons_self _ _) "x").2 (by decide)⟩

/-! ## Correctness of the liveness worklist traversal -/

/-- Does the block at index `u` read `name` (false for a missing index)? -/
def readerAt (cfg : CFG) (name : String) (u : Nat) : Bool :=
  match getBlock cfg u with
  | none => false
  | some blk => blockLoads blk name

/-- Does the block at index `u` write `name` without first reading it
(false for a missing index)? -/
def writerAt (cfg : CFG) (name : String) (u : Nat) : Bool :=
  match getBlock cfg u with
  | none => false
  | some blk => blockStores blk name

/-- One forward control-flow edge: `v` is among the successors of the
block at index `u`. -/
def succEdgeB (cfg : CFG) (u v : Nat) : Bool :=
  match getBlock cfg u with
  | none => false
  | some blk => blk.successors.contains v

/-- `name` is observed from block `b` onward: either `b` reads it, or `b`
does not touch it and some successor observes it.  This is the path
condition the traversal of `isLiveAtEnd` decides. -/
inductive ObsFrom (cfg : CFG) (name : String) : Nat → Prop where
  | read (b : Nat) (blk : CFGBlock) (hg : getBlock cfg b = some blk)
      (hl : blockLoads blk name = true) : ObsFrom cfg name b
  | step (b : Nat) (blk : CFGBlock) (s : Nat) (hg : getBlock cfg b = some blk)
      (hl : blockLoads blk name = false) (hst : blockStores blk name = false)
      (hsucc : s ∈ blk.successors) (h : ObsFrom cfg name s) : ObsFrom cfg name b

theorem bfsLive_sound (cfg : CFG) (name : String) :
    ∀ q visited, bfsLive cfg name q visited = true →
      ∃ b ∈ q, ObsFrom cfg name b := by
  intro q visited
  induction q, visited using bfsLive.induct cfg name with
  | case1 visited =>
      intro h
      rw [bfsLive] at h
      cases h
  | case2 b rest visited hv ih =>
      intro h
      rw [bfsLive] at h
      rw [dif_pos hv] at h
      rcases ih h with ⟨t, ht, hobs⟩
      exact ⟨t, List.mem_cons_of_mem b ht, hobs⟩
  | case3 b rest visited hv hg ih =>
      intro h
      rw [bfsLive] at h
      rw [dif_neg hv] at h
      rw [hg] at h
      rcases ih h with ⟨t, ht, hobs⟩
      exact ⟨t, List.mem_cons_of_mem b ht, hobs⟩
  | case4 b rest visited hv blk hg hl =>
      intro _
      exact ⟨b, List.mem_cons_self b rest, ObsFrom.read b blk hg hl⟩
  | case5 b rest visited hv blk hg hl hst ih =>
      intro h
      rw [bfsLive] at h
      rw [dif_neg hv] at h
      rw [hg] at h
      dsimp only at h
      rw [if_neg hl, if_pos hst] at h
      rcases ih h with ⟨t, ht, hobs⟩
      exact ⟨t, List.mem_cons_of_mem b ht, hobs⟩
  | case6 b rest visited hv blk hg hl hst ih =>
      intro h
      rw [bfsLive] at h
      rw [dif_neg hv] at h
      rw [hg] at h
      dsimp only at h
      rw [if_neg hl, if_neg hst] at h
      rcases ih h with ⟨t, ht, hobs⟩
      rcases List.mem_append.mp ht with htr | hts
      · exact ⟨t, List.mem_cons_of_mem b htr, hobs⟩
      · refine ⟨b, List.mem_cons_self b rest, ?_⟩
        exact ObsFrom.step b blk t hg (by simpa using hl) (by simpa using hst)
          hts hobs

/-- The invariant of the worklist: every visited block was examined — it
does not read the name, and unless it writes the name, every successor of
it has been enqueued or already visited. -/
def VisitedOk (cfg : CFG) (name : String) (q visited : List Nat) : Prop :=
  ∀ v ∈ visited,
    getBlock cfg v = none ∨
    ∃ blk, getBlock cfg v = some blk ∧ blockLoads blk name = false ∧
      (blockStores blk name = true ∨
        ∀ s ∈ blk.successors, s ∈ visited ∨ s ∈ q)

theorem obs_not_visited_of_closed (cfg : CFG) (name : String)
    (visited : List Nat) (hinv : VisitedOk cfg name [] visited) :
    ∀ t, ObsFrom cfg name t → t ∉ visited := by
  intro t hobs
  induction hobs with
  | read b blk hg hl =>
      intro hmem
      rcases hinv b hmem with hnone | ⟨blk2, hg2, hl2, _⟩
      · rw [hg] at hnone; cases hnone
      · rw [hg] at hg2
        injection hg2 with h
        subst h
        rw [hl] at hl2
        cases hl2
  | step b blk s hg hl hst hsucc hrec ih =>
      intro hmem
      rcases hinv b hmem with hnone | ⟨blk2, hg2, hl2, hrest⟩
      · rw [hg] at hnone; cases hnone
      · rw [hg] at hg2
        injection hg2 with h
        subst h
        rcases hrest with hstore | hsuccs
        · rw [hst] at hstore; cases hstore
        · rcases hsuccs s hsucc with hv | hq
          · exact ih hv
          · cases hq

theorem bfsLive_complete_aux (cfg : CFG) (name : String) :
    ∀ q visited, bfsLive cfg name q visited = false →
      VisitedOk cfg name q visited →
      ∀ t, ObsFrom cfg name t → t ∉ q ∧ t ∉ visited := by
  intro q visited
  induction q, visited using bfsLive.induct cfg name with
  | case1 visited =>
      intro _ hinv t hobs
      exact ⟨by simp, obs_not_visited_of_closed cfg name visited hinv t hobs⟩
  | case2 b rest visited hv ih =>
      intro hfalse hinv t hobs
      rw [bfsLive, dif_pos hv] at hfalse
      have hinv2 : VisitedOk cfg name rest visited := by
        intro v hvm
        rcases hinv v hvm with hnone | ⟨blk, hg, hl, hrest⟩
        · exact Or.inl hnone
        · refine Or.inr ⟨blk, hg, hl, ?_⟩
          rcases hrest with hstore | hsuccs
          · exact Or.inl hstore
          · refine Or.inr fun s hs => ?_
            rcases hsuccs s hs with h1 | h2
            · exact Or.inl h1
            · rcases List.mem_cons.mp h2 with rfl | h3
              · exact Or.inl hv
              · exact Or.inr h3
      rcases ih hfalse hinv2 t hobs with ⟨hq, hvis⟩
      refine ⟨?_, hvis⟩
      intro hmem
      rcases List.mem_cons.mp hmem with rfl | h3
      · exact hvis hv
      · exact hq h3
  | case3 b rest visited hv hg ih =>
      intro hfalse hinv t hobs
      rw [bfsLive, dif_neg hv, hg] at hfalse
      have hinv2 : VisitedOk cfg name rest (b :: visited) := by
        intro v hvm
        rcases List.mem_cons.mp hvm with rfl | hvm2
        · exact Or.inl hg
        · rcases hinv v hvm2 with hnone | ⟨blk, hgv, hl, hrest⟩
          · exact Or.inl hnone
          · refine Or.inr ⟨blk, hgv, hl, ?_⟩
            rcases hrest with hstore | hsuccs
            · exact Or.inl hstore
            · refine Or.inr fun s hs => ?_
              rcases hsuccs s hs with h1 | h2
              · exact Or.inl (List.mem_cons_of_mem _ h1)
              · rcases List.mem_cons.mp h2 with rfl | h3
                · exact Or.inl (List.mem_cons_self _ _)
                · exact Or.inr h3
      rcases ih hfalse hinv2 t hobs with ⟨hq, hvis⟩
      refine ⟨?_, fun hmem => hvis (List.mem_cons_of_mem b hmem)⟩
      intro hmem
      rcases List.mem_cons.mp hmem with rfl | h3
      · exact hvis (List.mem_cons_self t visited)
      · exact hq h3
  | case4 b rest visited hv blk hg hl =>
      intro hfalse _ t hobs
      rw [bfsLive, dif_neg hv, hg] at hfalse
      dsimp only at hfalse
      rw [if_pos hl] at hfalse
      cases hfalse
  | case5 b rest visited hv blk hg hl hst ih =>
      intro hfalse hinv t hobs
      rw [bfsLive, dif_neg hv, hg] at hfalse
      dsimp only at hfalse
      rw [if_neg hl, if_pos hst] at hfalse
      have hinv2 : VisitedOk cfg name rest (b :: visited) := by
        intro v hvm
        rcases List.mem_cons.mp hvm with rfl | hvm2
        · exact Or.inr ⟨blk, hg, by simpa using hl, Or.inl hst⟩
        · rcases hinv v hvm2 with hnone | ⟨blk2, hgv, hl2, hrest⟩
          · exact Or.inl hnone
          · refine Or.inr ⟨blk2, hgv, hl2, ?_⟩
            rcases hrest with hstore | hsuccs
            · exact Or.inl hstore
            · refine Or.inr fun s hs => ?_
              rcases hsuccs s hs with h1 | h2
              · exact Or.inl (List.mem_cons_of_mem _ h1)
              · rcases List.mem_cons.mp h2 with rfl | h3
                · exact Or.inl (List.mem_cons_self _ _)
                · exact Or.inr h3
      rcases ih hfalse hinv2 t hobs with ⟨hq, hvis⟩
      refine ⟨?_, fun hmem => hvis (List.mem_cons_of_mem b hmem)⟩
      intro hmem
      rcases List.mem_cons.mp hmem with rfl | h3
      · exact hvis (List.mem_cons_self t visited)
      · exact hq h3
  | case6 b rest visited hv blk hg hl hst ih =>
      intro hfalse hinv t hobs
      rw [bfsLive, dif_neg hv, hg] at hfalse
      dsimp only at hfalse
      rw [if_neg hl, if_neg hst] at hfalse
      have hinv2 : VisitedOk cfg name (rest ++ blk.successors) (b :: visited) := by
        intro v hvm
        rcases List.mem_cons.mp hvm with rfl | hvm2
        · refine Or.inr ⟨blk, hg, by simpa using hl, Or.inr fun s hs => ?_⟩
          exact Or.inr (List.mem_append.mpr (Or.inr hs))
        · rcases hinv v hvm2 with hnone | ⟨blk2, hgv, hl2, hrest⟩
          · exact Or.inl hnone
          · refine Or.inr ⟨blk2, hgv, hl2, ?_⟩
            rcases hrest with hstore | hsuccs
            · exact Or.inl hstore
            · refine Or.inr fun s hs => ?_
              rcases hsuccs s hs with h1 | h2
              · exact Or.inl (List.mem_cons_of_mem _ h1)
              · rcases List.mem_cons.mp h2 with rfl | h3
                · exact Or.inl (List.mem_cons_self _ _)
                · exact Or.inr (List.mem_append.mpr (Or.inl h3))
      rcases ih hfalse hinv2 t hobs with ⟨hq, hvis⟩
      refine ⟨?_, fun hmem => hvis (List.mem_cons_of_mem b hmem)⟩
      intro hmem
      rcases List.mem_cons.mp hmem with rfl | h3
      · exact hvis (List.mem_cons_self t visited)
      · exact hq (List.mem_append.mpr (Or.inl h3))

/-- The worklist traversal decides exactly the observation condition from
the successors of the queried block. -/
theorem isLiveAtEnd_iff_obs (cfg : CFG) (name : String) (block : CFGBlock) :
    isLiveAtEnd cfg name block = true ↔
      ∃ s ∈ block.successors, ObsFrom cfg name s := by
  unfold isLiveAtEnd
  by_cases he : block.successors.isEmpty
  · rw [if_pos he]
    constructor
    · intro h
      cases h
    · rintro ⟨s, hs, _⟩
      rw [List.isEmpty_iff] at he
      rw [he] at hs
      cases hs
  · rw [if_neg he]
    constructor
    · intro h
      exact bfsLive_sound cfg name block.successors [] h
    · rintro ⟨s, hs, hobs⟩
      by_contra hne
      have hfalse : bfsLive cfg name block.successors [] = false := by
        cases h : bfsLive cfg name block.successors []
        · rfl
        · exact absurd h hne
      have hinv : VisitedOk cfg name block.successors [] := by
        intro v hv
        cases hv
      exact (bfsLive_complete_aux cfg name block.successors [] hfalse hinv
        s hobs).1 hs

theorem obs_to_path (cfg : CFG) (name : String) :
    ∀ b, ObsFrom cfg name b →
      ∃ p : List Nat, p.head? = some b ∧
        List.Chain' (fun u v => succEdgeB cfg u v = true) p ∧
        (∃ t, p.getLast? = some t ∧ readerAt cfg name t = true) ∧
        (∀ u ∈ p.dropLast, writerAt cfg name u = false) := by
  intro b hobs
  induction hobs with
  | read b blk hg hl =>
      refine ⟨[b], rfl, List.chain'_singleton b, ⟨b, rfl, ?_⟩, by simp⟩
      unfold readerAt
      rw [hg]
      exact hl
  | step b blk s hg hl hst hsucc hrec ih =>
      obtain ⟨p, hhead, hchain, ⟨t, hlast, hread⟩, hmid⟩ := ih
      rcases p with _ | ⟨s0, p'⟩
      · cases hhead
      · have hs0 : s = s0 := by
          injection hhead with h
          exact h.symm
        subst hs0
        refine ⟨b :: s :: p', rfl, ?_, ⟨t, ?_, hread⟩, ?_⟩
        · rw [List.chain'_cons]
          refine ⟨?_, hchain⟩
          unfold succEdgeB
          rw [hg]
          simpa [List.elem_iff] using hsucc
        · rw [List.getLast?_cons_cons]
          exact hlast
        · rw [List.dropLast_cons₂]
          intro u hu
          rcases List.mem_cons.mp hu with rfl | hu2
          · unfold writerAt
            rw [hg]
            exact hst
          · exact hmid u hu2

theorem path_to_obs (cfg : CFG) (name : String) :
    ∀ (p : List Nat) (b : Nat), p.head? = some b →
      List.Chain' (fun u v => succEdgeB cfg u v = true) p →
      (∃ t, p.getLast? = some t ∧ readerAt cfg name t = true) →
      (∀ u ∈ p.dropLast, writerAt cfg name u = false) →
      ObsFrom cfg name b := by
  intro p
  induction p with
  | nil => intro b h; cases h
  | cons u rest ih =>
      intro b hhead hchain hlast hmid
      have hb : u = b := by injection hhead
      subst hb
      rcases rest with _ | ⟨v, rest2⟩
      · rcases hlast with ⟨t, hlast, hread⟩
        have ht : t = u := by
          simp only [List.getLast?_singleton, Option.some.injEq] at hlast
          exact hlast.symm
        subst ht
        unfold readerAt at hread
        cases hg : getBlock cfg t with
        | none => rw [hg] at hread; cases hread
        | some blk =>
            rw [hg] at hread
            exact ObsFrom.read t blk hg hread
      · rw [List.chain'_cons] at hchain
        have hedge := hchain.1
        unfold succEdgeB at hedge
        cases hg : getBlock cfg u with
        | none => rw [hg] at hedge; cases hedge
        | some blk =>
            rw [hg] at hedge
            have hvmem : v ∈ blk.successors := by
              simpa [List.elem_iff] using hedge
            have hwu : writerAt cfg name u = false := by
              apply hmid
              rw [List.dropLast_cons₂]
              exact List.mem_cons_self u _
            unfold writerAt at hwu
            rw [hg] at hwu
            by_cases hr : blockLoads blk name = true
            · exact ObsFrom.read u blk hg hr
            · rcases hlast with ⟨t, hlast, hread⟩
              rw [List.getLast?_cons_cons] at hlast
              have hobs : ObsFrom cfg name v := by
                apply ih v rfl hchain.2 ⟨t, hlast, hread⟩
                intro w hw
                apply hmid
                rw [List.dropLast_cons₂]
                exact List.mem_cons_of_mem u hw
              exact ObsFrom.step u blk v hg (by simpa using hr) hwu hvmem hobs

/-- The requirements on a liveness witness path, head excluded: forward
edges throughout, a read of the name at the final block, and no write of
the name strictly before it. -/
def LivePathOk (cfg : CFG) (name : String) (p : List Nat) : Prop :=
  List.Chain' (fun u v => succEdgeB cfg u v = true) p ∧
  (∃ t, p.getLast? = some t ∧ readerAt cfg name t = true) ∧
  (∀ u ∈ p.dropLast, writerAt cfg name u = false)

theorem not_nodup_split {l : List Nat} (h : ¬ l.Nodup) :
    ∃ (a : List Nat) (x : Nat) (b c : List Nat),
      l = a ++ x :: (b ++ x :: c) := by
  induction l with
  | nil => simp at h
  | cons y t ih =>
      rw [List.nodup_cons] at h
      by_cases hy : y ∈ t
      · rcases List.mem_iff_append.mp hy with ⟨b, c, hbc⟩
        exact ⟨[], y, b, c, by rw [hbc]; rfl⟩
      · have ht : ¬ t.Nodup := fun hnd => h ⟨hy, hnd⟩
        rcases ih ht with ⟨a, x, b, c, hac⟩
        exact ⟨y :: a, x, b, c, by rw [hac]; rfl⟩

theorem shorten_path (cfg : CFG) (name : String) :
    ∀ (n : Nat) (p : List Nat), p.length ≤ n → LivePathOk cfg name p →
      ∃ q : List Nat, q.head? = p.head? ∧ LivePathOk cfg name q ∧ q.Nodup := by
  intro n
  induction n with
  | zero =>
      intro p hlen hok
      rcases p with _ | ⟨u, rest⟩
      · exact ⟨[], rfl, hok, List.nodup_nil⟩
      · simp at hlen
  | succ n ih =>
      intro p hlen hok
      by_cases hnd : p.Nodup
      · exact ⟨p, rfl, hok, hnd⟩
      · obtain ⟨a, x, b, c, rfl⟩ := not_nodup_split hnd
        obtain ⟨hchain, ⟨t, hlast, hread⟩, hmid⟩ := hok
        have hp_eq : a ++ x :: (b ++ x :: c)
            = (a ++ [x]) ++ ((b ++ [x]) ++ c) := by simp
        have hq_eq : a ++ x :: c = (a ++ [x]) ++ c := by simp
        rw [hp_eq] at hchain
        rcases List.chain'_append.mp hchain with ⟨ch1, ch23, link1⟩
        rcases List.chain'_append.mp ch23 with ⟨ch2, ch3, link2⟩
        have hchain_q : List.Chain' (fun u v => succEdgeB cfg u v = true)
            (a ++ x :: c) := by
          rw [hq_eq]
          refine List.chain'_append.mpr ⟨ch1, ch3, ?_⟩
          intro u hu v hv
          apply link2 u ?_ v hv
          rw [List.getLast?_concat] at hu ⊢
          exact hu
        have hlast_q : (a ++ x :: c).getLast? =
            (a ++ x :: (b ++ x :: c)).getLast? := by
          rcases c with _ | ⟨c0, c'⟩
          · have h1 : a ++ x :: ([] : List Nat) = a ++ [x] := rfl
            have h2 : a ++ x :: (b ++ x :: ([] : List Nat))
                = (a ++ x :: b) ++ [x] := by simp
            rw [h1, h2, List.getLast?_concat, List.getLast?_concat]
          · have hcsome : (c0 :: c').getLast?.isSome = true :=
              List.getLast?_isSome.mpr (by simp)
            have h1 : a ++ x :: (c0 :: c') = (a ++ [x]) ++ (c0 :: c') := by simp
            have h2 : a ++ x :: (b ++ x :: (c0 :: c'))
                = (a ++ x :: b ++ [x]) ++ (c0 :: c') := by simp
            rw [h1, h2, List.getLast?_append, Option.or_of_isSome hcsome,
              List.getLast?_append, Option.or_of_isSome hcsome]
        have hmid_q : ∀ u ∈ (a ++ x :: c).dropLast,
            writerAt cfg name u = false := by
          intro u hu
          apply hmid
          rcases c with _ | ⟨c0, c'⟩
          · rw [show a ++ x :: ([] : List Nat) = a ++ [x] from rfl,
              List.dropLast_concat] at hu
            rw [show a ++ x :: (b ++ x :: ([] : List Nat)) = (a ++ x :: b) ++ [x]
              from by simp, List.dropLast_concat]
            exact List.mem_append.mpr (Or.inl hu)
          · rw [show a ++ x :: (c0 :: c') = a ++ (x :: c0 :: c') from rfl,
              List.dropLast_append] at hu
            rw [show a ++ x :: (b ++ x :: (c0 :: c'))
                = (a ++ x :: b) ++ (x :: c0 :: c') from by simp,
              List.dropLast_append]
            simp only [List.isEmpty_cons, Bool.false_eq_true, if_false,
              List.mem_append] at hu ⊢
            tauto
        have hlen_q : (a ++ x :: c).length ≤ n := by
          simp only [List.length_append, List.length_cons] at hlen ⊢
          omega
        obtain ⟨q, hqhead, hqok, hqnd⟩ := ih (a ++ x :: c) hlen_q
          ⟨hchain_q, ⟨t, by rw [hlast_q]; exact hlast, hread⟩, hmid_q⟩
        refine ⟨q, ?_, hqok, hqnd⟩
        rw [hqhead, List.head?_append, List.head?_append]
        rfl

/-! ## C2 -/

/-- C2: `isLiveAtEnd` is true iff some finite forward path that visits
each block at most once starts at a successor of the block and reaches a
block whose read set contains the name, with no block before it on the
path writing the name first; and a block with zero successors yields false
immediately. -/
theorem c2_isLiveAtEnd_iff_path (cfg : CFG) (name : String)
    (block : CFGBlock) :
    (isLiveAtEnd cfg name block = true ↔
      ∃ p : List Nat, p.Nodup ∧
        (∃ s, p.head? = some s ∧ s ∈ block.successors) ∧
        List.Chain' (fun u v => succEdgeB cfg u v = true) p ∧
        (∃ t, p.getLast? = some t ∧ readerAt cfg name t = true) ∧
        (∀ u ∈ p.dropLast, writerAt cfg name u = false))
  ∧ (block.successors = [] → isLiveAtEnd cfg name block = false) := by
  constructor
  · rw [isLiveAtEnd_iff_obs]
    constructor
    · rintro ⟨s, hs, hobs⟩
      obtain ⟨p, hhead, hchain, hlast, hmid⟩ := obs_to_path cfg name s hobs
      obtain ⟨q, hqhead, ⟨hqchain, hqlast, hqmid⟩, hqnd⟩ :=
        shorten_path cfg name p.length p le_rfl ⟨hchain, hlast, hmid⟩
      exact ⟨q, hqnd, ⟨s, by rw [hqhead, hhead], hs⟩, hqchain, hqlast, hqmid⟩
    · rintro ⟨p, hnd, ⟨s, hhead, hs⟩, hchain, hlast, hmid⟩
      exact ⟨s, hs, path_to_obs cfg name p s hhead hchain hlast hmid⟩
  · intro h
    unfold isLiveAtEnd
    rw [if_pos (by rw [h]; rfl)]

theorem c2_witness :
    isLiveAtEnd exPhi "x"
      ⟨0, [.Assign [.Name .Store "x"] (.Num 1)], [], [1, 2]⟩ = true :=
  (c2_isLiveAtEnd_iff_path exPhi "x"
    ⟨0, [.Assign [.Name .Store "x"] (.Num 1)], [], [1, 2]⟩).1.mpr
    ⟨[1], by decide, ⟨1, rfl, by decide⟩, List.chain'_singleton 1,
      ⟨1, rfl, by decide⟩, by simp⟩

/-! ## C3 -/

/-- C3 (refuting the claim as stated): block 1 of `exImportLive` contains
`import m` and block 2 reads `m`.  The claim predicts that the import
binds `m` and therefore shadows it for liveness, so that
`isLiveAtEnd m` at block 0 would be false; the code returns true, because
the liveness classifier records no write for an import (its computed store
set is empty). -/
theorem c3_counterexample :
    isLiveAtEnd exImportLive "m" ⟨0, [], [], [1]⟩ = true
  ∧ blockStores ⟨1, [.Import [⟨"m", ""⟩]], [0], [2]⟩ "m" = false := by
  constructor
  · apply (isLiveAtEnd_iff_obs exImportLive "m" _).mpr
    refine ⟨1, by decide, ?_⟩
    refine ObsFrom.step 1 ⟨1, [.Import [⟨"m", ""⟩]], [0], [2]⟩ 2 rfl
      (by decide) (by decide) (by decide) ?_
    exact ObsFrom.read 2 ⟨2, [.Expr (.Name .Load "m")], [1], []⟩ rfl (by decide)
  · decide

/-- C3 (amended): the definedness classifier records an import as a write
of each bound name — the alias if present, otherwise the imported name —
so the bound name is `Defined` at the block's exit regardless of the
incoming state; the liveness classifier, however, records nothing for
an import statement (neither a read nor a write), so imports do not
block liveness propagation. -/
theorem c3_import_write_definedness_only (args : Option Arguments)
    (blk : CFGBlock) (m : DefMap) (aliases : List ImAlias) (al : ImAlias)
    (hbody : AST.Import aliases ∈ blk.body) (hal : al ∈ aliases) :
    processBlock args blk m (boundName al) = .Defined
  ∧ (∀ s : LiveState, livenessVisit s (.Import aliases) = s) := by
  constructor
  · rw [processBlock_apply]
    rw [if_pos ?_]
    apply List.mem_append.mpr
    left
    exact List.mem_flatMap.mpr ⟨.Import aliases, hbody,
      by simpa [stmtWrites] using List.mem_map_of_mem boundName hal⟩
  · intro s
    rfl

theorem c3_witness :
    processBlock none ⟨1, [.Import [⟨"m", ""⟩]], [0], [2]⟩
      (fun _ => .Undefined) (boundName ⟨"m", ""⟩) = .Defined :=
  (c3_import_write_definedness_only none
    ⟨1, [.Import [⟨"m", ""⟩]], [0], [2]⟩ (fun _ => .Undefined)
    [⟨"m", ""⟩] ⟨"m", ""⟩ (List.mem_singleton.mpr rfl)
    (List.mem_singleton.mpr rfl)).1

/-! ## C10 -/

/-- C10: `getAllRequiredAfter` returns the empty set for a block without
successors; otherwise it returns the required-phi set of the block's first
successor — which, for a block with two or more successors, can be
non-empty (shown on `exPhi`) even though `isRequiredAfter` is false for
every name on such a block. -/
theorem c10_getAllRequiredAfter (cfg : CFG) (args : Option Arguments)
    (scope : ScopeInfo) (blk : CFGBlock) :
    (blk.successors = [] → getAllRequiredAfter cfg args scope blk = [])
  ∧ (∀ s rest, blk.successors = s :: rest →
      ((∀ n : String, n ∈ getAllRequiredAfter cfg args scope blk ↔
          isRequired cfg args scope n s = true)
        ∧ (2 ≤ blk.successors.length →
          ∀ n : String, isRequiredAfter cfg args scope n blk = false)))
  ∧ getAllRequiredAfter exPhi none noGlobal
      ⟨0, [.Assign [.Name .Store "x"] (.Num 1)], [], [1, 2]⟩ = ["x"] := by
  refine ⟨?_, ?_, ?_⟩
  · intro h
    unfold getAllRequiredAfter
    rw [h]
  · intro s rest heq
    constructor
    · intro n
      unfold getAllRequiredAfter isRequired
      rw [heq]
      dsimp only
      cases h : lookupPhis cfg args scope s with
      | none => simp
      | some l => simp [List.elem_iff]
    · intro h2 n
      unfold isRequiredAfter
      rw [heq] at h2 ⊢
      rcases rest with _ | ⟨r, rest2⟩
      · simp at h2
      · rfl
  · have hlive : isLiveAtEnd exPhi "x"
        ⟨0, [.Assign [.Name .Store "x"] (.Num 1)], [], [1, 2]⟩ = true := by
      apply (isLiveAtEnd_iff_obs exPhi "x" _).mpr
      exact ⟨1, by decide,
        ObsFrom.read 1 ⟨1, [.Expr (.Name .Load "x")], [0, 2], []⟩ rfl
          (by decide)⟩
    have hlp : livePred0 exPhi ⟨1, [.Expr (.Name .Load "x")], [0, 2], []⟩
        "x" = true := hlive
    have hspec := @lookupPhis_spec exPhi none noGlobal (by decide)
      ⟨1, [.Expr (.Name .Load "x")], [0, 2], []⟩
      (List.mem_cons_of_mem _ (List.mem_cons_self _ _))
    rw [if_pos (by decide)] at hspec
    have hdn : getDefinedNamesAt exPhi none noGlobal 1 = ["x"] := by decide
    rw [hdn] at hspec
    show (lookupPhis exPhi none noGlobal 1).getD [] = ["x"]
    rw [hspec]
    simp [List.filter, hlp]

theorem c10_witness :
    getAllRequiredAfter exPhi none noGlobal
      ⟨1, [.Expr (.Name .Load "x")], [0, 2], []⟩ = []
  ∧ ("x" ∈ getAllRequiredAfter exPhi none noGlobal ⟨2, [], [0], [1]⟩ ↔
      isRequired exPhi none noGlobal "x" 1 = true) :=
  ⟨(c10_getAllRequiredAfter exPhi none noGlobal
      ⟨1, [.Expr (.Name .Load "x")], [0, 2], []⟩).1 rfl,
   ((c10_getAllRequiredAfter exPhi none noGlobal ⟨2, [], [0], [1]⟩).2.1
      1 [] rfl).1 "x"⟩

/-! ## Paths through the predecessor relation

The definedness engine pulls information along predecessor edges, so the
path notions of the lattice-correctness claim are phrased over them: an
entry path to `b` starts at block 0, ends at `b`, and follows an edge
`u → v` whenever `u` is among the predecessors of `v`. -/

/-- `u → v` is an edge: `u` is listed among the predecessors of `v`. -/
def predEdgeB (cfg : CFG) (u v : Nat) : Bool :=
  match getBlock cfg v with
  | none => false
  | some blk => blk.predecessors.contains u

/-- Does the transfer of the block at index `i` write `n`? -/
def writesB (cfg : CFG) (args : Option Arguments) (i : Nat) (n : String) :
    Bool :=
  match getBlock cfg i with
  | none => false
  | some blk => (blockWrites args blk).contains n

/-- A path from the entry block to `b` along predecessor edges. -/
def IsEntryPathTo (cfg : CFG) (l : List Nat) (b : Nat) : Prop :=
  l.head? = some 0 ∧ l.getLast? = some b ∧
  List.Chain' (fun u v => predEdgeB cfg u v = true) l

/-- The name is written by some block traversed strictly before the path's
final block. -/
def WritesOnPath (cfg : CFG) (args : Option Arguments) (n : String)
    (l : List Nat) : Prop :=
  ∃ p ∈ l.dropLast, writesB cfg args p n = true

theorem exitAt_pres_iff (cfg : CFG) (args : Option Arguments) (s : DefState)
    (p : Nat) (n : String) :
    exitAt cfg args s p n ≠ .Undefined ↔
      ((∃ blk, getBlock cfg p = some blk) ∧
        (writesB cfg args p n = true ∨ s p n ≠ .Undefined)) := by
  unfold exitAt writesB
  cases h : getBlock cfg p with
  | none => simp
  | some blk =>
      dsimp only
      rw [processBlock_apply]
      by_cases hw : n ∈ blockWrites args blk
      · simp [hw, List.elem_iff]
      · simp [hw, List.elem_iff]

theorem engineIter_pres_block (cfg : CFG) (args : Option Arguments) :
    ∀ (r : Nat) (p : Nat) (n : String),
      engineIter cfg args r p n ≠ .Undefined →
      ∃ blk, getBlock cfg p = some blk := by
  intro r p n h
  cases r with
  | zero => exact absurd rfl h
  | succ r =>
      rw [engineIter] at h
      unfold engineStep at h
      cases hg : getBlock cfg p with
      | none => rw [hg] at h; exact absurd rfl h
      | some blk => exact ⟨blk, rfl⟩

theorem engineStep_pres_iff (cfg : CFG) (args : Option Arguments)
    (s : DefState) (b : Nat) (n : String) :
    engineStep cfg args s b n ≠ .Undefined ↔
      ∃ blk, getBlock cfg b = some blk ∧
        ∃ p ∈ blk.predecessors, exitAt cfg args s p n ≠ .Undefined := by
  unfold engineStep
  cases h : getBlock cfg b with
  | none =>
      simp only [ne_eq, not_true_eq_false, false_iff]
      rintro ⟨blk, hblk, _⟩
      cases hblk
  | some blk =>
      rw [combine_ne_undefined_iff]
      constructor
      · rintro ⟨v, hv, hne⟩
        rcases List.mem_map.mp hv with ⟨p, hp, rfl⟩
        exact ⟨blk, rfl, p, hp, hne⟩
      · rintro ⟨blk2, hblk2, p, hp, hne⟩
        have hb2 : blk2 = blk := by
          injection hblk2 with h2
          exact h2.symm
        subst hb2
        exact ⟨exitAt cfg args s p n, List.mem_map_of_mem _ hp, hne⟩

theorem path_snoc (cfg : CFG) {lp : List Nat} {p b : Nat} {blk : CFGBlock}
    (hpath : IsEntryPathTo cfg lp p) (hg : getBlock cfg b = some blk)
    (hp : p ∈ blk.predecessors) : IsEntryPathTo cfg (lp ++ [b]) b := by
  obtain ⟨hhead, hlast, hchain⟩ := hpath
  refine ⟨?_, List.getLast?_concat lp, ?_⟩
  · rw [List.head?_append, hhead]
    rfl
  · apply List.chain'_append.mpr
    refine ⟨hchain, List.chain'_singleton b, ?_⟩
    intro u hu v hv
    rw [hlast] at hu
    have hup : u = p := by
      have := hu
      simp only [Option.mem_def, Option.some.injEq] at this
      exact this.symm
    have hvb : v = b := by
      have := hv
      simp only [List.head?_cons, Option.mem_def, Option.some.injEq] at this
      exact this.symm
    subst hup
    subst hvb
    unfold predEdgeB
    rw [hg]
    simpa [List.elem_iff] using hp

theorem entry_path_writes (cfg : CFG) (args : Option Arguments) (n : String)
    (hw : writesB cfg args 0 n = true) {l : List Nat} {b : Nat} (hb : b ≠ 0)
    (hpath : IsEntryPathTo cfg l b) : WritesOnPath cfg args n l := by
  obtain ⟨hhead, hlast, _⟩ := hpath
  rcases l with _ | ⟨h0, rest⟩
  · cases hhead
  · have h00 : h0 = 0 := by injection hhead
    subst h00
    rcases rest with _ | ⟨r1, rest2⟩
    · simp only [List.getLast?_singleton, Option.some.injEq] at hlast
      exact absurd hlast.symm hb
    · refine ⟨0, ?_, hw⟩
      rw [List.dropLast_cons₂]
      exact List.mem_cons_self _ _

/-- If a round declares a name `Defined` at a block's entry, every entry
path to that block writes the name (assuming the entry block has no
predecessors). -/
theorem iter_defined_implies_all_paths (cfg : CFG) (args : Option Arguments)
    (h0 : ∀ blk0, getBlock cfg 0 = some blk0 → blk0.predecessors = []) :
    ∀ (r : Nat) (b : Nat) (n : String),
      engineIter cfg args r b n = .Defined →
      ∀ l, IsEntryPathTo cfg l b → WritesOnPath cfg args n l := by
  intro r
  induction r with
  | zero =>
      intro b n h
      cases h
  | succ r ih =>
      intro b n h l hpath
      rw [engineIter] at h
      unfold engineStep at h
      obtain ⟨hhead, hlast, hchain⟩ := hpath
      cases hg : getBlock cfg b with
      | none => rw [hg] at h; cases h
      | some blk =>
          rw [hg] at h
          rcases (combine_eq_defined_iff _).mp h with ⟨hne, hall⟩
          obtain ⟨lp, rfl⟩ := List.getLast?_eq_some_iff.mp hlast
          rcases hlp : lp with _ | ⟨x0, l2⟩
          · subst hlp
            have hb0 : b = 0 := by
              simp only [List.nil_append, List.head?_cons,
                Option.some.injEq] at hhead
              exact hhead
            subst hb0
            rw [h0 blk hg] at hne
            simp at hne
          · subst hlp
            have hlpne : x0 :: l2 ≠ [] := by simp
            obtain ⟨p, hplast⟩ :
                ∃ p, (x0 :: l2).getLast? = some p :=
              Option.isSome_iff_exists.mp (List.getLast?_isSome.mpr hlpne)
            rcases List.chain'_append.mp hchain with ⟨ch1, _, hlink⟩
            have hedge : predEdgeB cfg p b = true := by
              apply hlink p ?_ b rfl
              rw [hplast]
              rfl
            have hpmem : p ∈ blk.predecessors := by
              unfold predEdgeB at hedge
              rw [hg] at hedge
              simpa [List.elem_iff] using hedge
            have hexit : exitAt cfg args (engineIter cfg args r) p n
                = .Defined :=
              hall _ (List.mem_map_of_mem _ hpmem)
            unfold exitAt at hexit
            cases hgp : getBlock cfg p with
            | none => rw [hgp] at hexit; cases hexit
            | some pblk =>
                rw [hgp] at hexit
                dsimp only at hexit
                rw [processBlock_apply] at hexit
                by_cases hw : n ∈ blockWrites args pblk
                · refine ⟨p, ?_, ?_⟩
                  · rw [List.dropLast_concat]
                    exact List.mem_of_mem_getLast? hplast
                  · unfold writesB
                    rw [hgp]
                    simpa [List.elem_iff] using hw
                · rw [if_neg hw] at hexit
                  have hhead2 : (x0 :: l2).head? = some 0 := by
                    rw [List.head?_append] at hhead
                    simpa using hhead
                  have hrec := ih p n hexit (x0 :: l2) ⟨hhead2, hplast, ch1⟩
                  rcases hrec with ⟨q, hq, hwq⟩
                  refine ⟨q, ?_, hwq⟩
                  rw [List.dropLast_concat]
                  exact List.dropLast_subset _ hq

/-- If a round holds any value for a name at a block's entry, some entry
path to that block writes the name (assuming every block of the graph is
reachable from the entry block). -/
theorem iter_present_implies_some_path (cfg : CFG) (args : Option Arguments)
    (hreach : ∀ i blk, getBlock cfg i = some blk →
      ∃ l, IsEntryPathTo cfg l i) :
    ∀ (r : Nat) (b : Nat) (n : String),
      engineIter cfg args r b n ≠ .Undefined →
      ∃ l, IsEntryPathTo cfg l b ∧ WritesOnPath cfg args n l := by
  intro r
  induction r with
  | zero =>
      intro b n h
      exact absurd rfl h
  | succ r ih =>
      intro b n h
      rw [engineIter] at h
      rcases (engineStep_pres_iff cfg args _ b n).mp h with
        ⟨blk, hg, p, hp, hexit⟩
      rcases (exitAt_pres_iff cfg args _ p n).mp hexit with
        ⟨⟨pblk, hgp⟩, hcase⟩
      rcases hcase with hw | hpres
      · obtain ⟨lp, hlp⟩ := hreach p pblk hgp
        refine ⟨lp ++ [b], path_snoc cfg hlp hg hp, p, ?_, hw⟩
        rw [List.dropLast_concat]
        have hne : lp ≠ [] := by
          intro hnil
          rw [hnil] at hlp
          cases hlp.1
        exact List.mem_of_mem_getLast? hlp.2.1
      · obtain ⟨lp, hlp, q, hq, hwq⟩ := ih p n hpres
        refine ⟨lp ++ [b], path_snoc cfg hlp hg hp, q, ?_, hwq⟩
        rw [List.dropLast_concat]
        exact List.dropLast_subset _ hq

/-! ### Stabilization of the present-name set

The set of (block, name) pairs holding a value only grows from round to
round and lives inside a fixed finite set, so it stabilizes within
`engineFuel` rounds; once it is stable it is closed under the engine's
one-step propagation rule, which gives the lower bound of the lattice
claim. -/

theorem presMono (cfg : CFG) (args : Option Arguments) :
    ∀ (r : Nat) (b : Nat) (n : String),
      engineIter cfg args r b n ≠ .Undefined →
      engineIter cfg args (r + 1) b n ≠ .Undefined := by
  intro r
  induction r with
  | zero =>
      intro b n h
      exact absurd rfl h
  | succ r ih =>
      intro b n h
      rw [engineIter] at h ⊢
      rcases (engineStep_pres_iff cfg args _ b n).mp h with
        ⟨blk, hg, p, hp, hexit⟩
      apply (engineStep_pres_iff cfg args _ b n).mpr
      refine ⟨blk, hg, p, hp, ?_⟩
      rcases (exitAt_pres_iff cfg args _ p n).mp hexit with ⟨hbp, hcase⟩
      apply (exitAt_pres_iff cfg args _ p n).mpr
      refine ⟨hbp, ?_⟩
      rcases hcase with hw | hpres
      · exact Or.inl hw
      · exact Or.inr (ih p n hpres)

theorem pres_name (cfg : CFG) (args : Option Arguments) :
    ∀ (r : Nat) (b : Nat) (n : String),
      engineIter cfg args r b n ≠ .Undefined → n ∈ allNames cfg args := by
  intro r
  induction r with
  | zero =>
      intro b n h
      exact absurd rfl h
  | succ r ih =>
      intro b n h
      rw [engineIter] at h
      rcases (engineStep_pres_iff cfg args _ b n).mp h with
        ⟨blk, _, p, _, hexit⟩
      rcases (exitAt_pres_iff cfg args _ p n).mp hexit with ⟨⟨pblk, hgp⟩, hcase⟩
      rcases hcase with hw | hpres
      · unfold writesB at hw
        rw [hgp] at hw
        have hmem : n ∈ blockWrites args pblk := by
          simpa [List.elem_iff] using hw
        exact List.mem_flatMap.mpr ⟨pblk, (getBlock_mem hgp).1, hmem⟩
      · exact ih p n hpres

/-- The finite set of (block index, writable name) pairs. -/
def pairList (cfg : CFG) (args : Option Arguments) : List (Nat × String) :=
  (cfg.blocks.map CFGBlock.idx).flatMap
    (fun i => (allNames cfg args).map (fun n => (i, n)))

theorem pres_pair (cfg : CFG) (args : Option Arguments) (r : Nat) (b : Nat)
    (n : String) (h : engineIter cfg args r b n ≠ .Undefined) :
    (b, n) ∈ pairList cfg args := by
  rcases engineIter_pres_block cfg args r b n h with ⟨blk, hg⟩
  rcases getBlock_mem hg with ⟨hmem, hidx⟩
  apply List.mem_flatMap.mpr
  exact ⟨b, List.mem_map.mpr ⟨blk, hmem, hidx⟩,
    List.mem_map.mpr ⟨n, pres_name cfg args r b n h, rfl⟩⟩

theorem pairList_length (cfg : CFG) (args : Option Arguments) :
    (pairList cfg args).length
      = cfg.blocks.length * (allNames cfg args).length := by
  unfold pairList
  rw [List.length_flatMap]
  have hfn : (List.length ∘ fun i : Nat =>
      (allNames cfg args).map (fun n => (i, n)))
      = fun _ : Nat => (allNames cfg args).length := by
    funext i
    simp
  rw [hfn, List.map_const', List.sum_replicate, smul_eq_mul, List.length_map]

/-- The rounds `r` and `r + 1` agree on which pairs hold a value. -/
def StableAt (cfg : CFG) (args : Option Arguments) (r : Nat) : Prop :=
  ∀ (b : Nat) (n : String),
    engineIter cfg args r b n ≠ .Undefined ↔
      engineIter cfg args (r + 1) b n ≠ .Undefined

/-- The count of present pairs at round `r`. -/
def presCount (cfg : CFG) (args : Option Arguments) (r : Nat) : Nat :=
  (pairList cfg args).countP
    (fun pr => decide (engineIter cfg args r pr.1 pr.2 ≠ .Undefined))

theorem presCount_lt_of_unstable (cfg : CFG) (args : Option Arguments)
    (r : Nat) (h : ¬ StableAt cfg args r) :
    presCount cfg args r < presCount cfg args (r + 1) := by
  unfold StableAt at h
  push_neg at h
  obtain ⟨b, n, hniff⟩ := h
  have hnew : engineIter cfg args (r + 1) b n ≠ .Undefined ∧
      ¬ engineIter cfg args r b n ≠ .Undefined := by
    rcases hniff with ⟨hA, hB⟩ | ⟨hA, hB⟩
    · exact absurd hB (presMono cfg args r b n hA)
    · exact ⟨hB, fun hh => hh hA⟩
  unfold presCount
  rw [List.countP_eq_length_filter, List.countP_eq_length_filter]
  apply length_filter_lt_of_witness _ _ _ ?_ (b, n)
    (pres_pair cfg args (r + 1) b n hnew.1)
  · simpa using hnew.2
  · simpa using hnew.1
  · intro pr _ hp
    simp only [decide_eq_true_eq] at hp ⊢
    exact presMono cfg args r pr.1 pr.2 hp

theorem presCount_le_len (cfg : CFG) (args : Option Arguments) (r : Nat) :
    presCount cfg args r ≤ (pairList cfg args).length :=
  List.countP_le_length _

theorem exists_stable (cfg : CFG) (args : Option Arguments) :
    ∃ r < engineFuel cfg args, StableAt cfg args r := by
  by_contra hno
  push_neg at hno
  have hchain : ∀ k, k ≤ engineFuel cfg args → k ≤ presCount cfg args k := by
    intro k
    induction k with
    | zero => intro _; exact Nat.zero_le _
    | succ k ih =>
        intro hk
        have h1 : k ≤ presCount cfg args k := ih (Nat.le_of_succ_le hk)
        have h2 : presCount cfg args k < presCount cfg args (k + 1) :=
          presCount_lt_of_unstable cfg args k
            (hno k (Nat.lt_of_succ_le hk))
        omega
  have h1 := hchain (engineFuel cfg args) le_rfl
  have h2 := presCount_le_len cfg args (engineFuel cfg args)
  rw [pairList_length] at h2
  unfold engineFuel at h1 h2
  omega

theorem stable_step (cfg : CFG) (args : Option Arguments) (r : Nat)
    (h : StableAt cfg args r) : StableAt cfg args (r + 1) := by
  intro b n
  constructor
  · intro hpre
    have h1 : engineStep cfg args (engineIter cfg args r) b n
        ≠ .Undefined := hpre
    rcases (engineStep_pres_iff cfg args _ b n).mp h1 with
      ⟨blk, hg, p, hp, hexit⟩
    show engineStep cfg args (engineIter cfg args (r + 1)) b n ≠ .Undefined
    apply (engineStep_pres_iff cfg args _ b n).mpr
    refine ⟨blk, hg, p, hp, ?_⟩
    rcases (exitAt_pres_iff cfg args _ p n).mp hexit with ⟨hbp, hcase⟩
    apply (exitAt_pres_iff cfg args _ p n).mpr
    refine ⟨hbp, ?_⟩
    rcases hcase with hw | hpres
    · exact Or.inl hw
    · exact Or.inr ((h p n).mp hpres)
  · intro hpre
    have h1 : engineStep cfg args (engineIter cfg args (r + 1)) b n
        ≠ .Undefined := hpre
    rcases (engineStep_pres_iff cfg args _ b n).mp h1 with
      ⟨blk, hg, p, hp, hexit⟩
    show engineStep cfg args (engineIter cfg args r) b n ≠ .Undefined
    apply (engineStep_pres_iff cfg args _ b n).mpr
    refine ⟨blk, hg, p, hp, ?_⟩
    rcases (exitAt_pres_iff cfg args _ p n).mp hexit with ⟨hbp, hcase⟩
    apply (exitAt_pres_iff cfg args _ p n).mpr
    refine ⟨hbp, ?_⟩
    rcases hcase with hw | hpres
    · exact Or.inl hw
    · exact Or.inr ((h p n).mpr hpres)

theorem stable_at_fuel (cfg : CFG) (args : Option Arguments) :
    StableAt cfg args (engineFuel cfg args) := by
  obtain ⟨r, hr, hst⟩ := exists_stable cfg args
  have : ∀ t, r ≤ t → StableAt cfg args t := by
    intro t
    induction t with
    | zero =>
        intro ht
        rw [Nat.le_zero] at ht
        subst ht
        exact hst
    | succ t ih =>
        intro ht
        rcases Nat.lt_or_ge r (t + 1) with hlt | hge
        · exact stable_step cfg args t (ih (Nat.lt_succ_iff.mp hlt))
        · have heq : r = t + 1 := Nat.le_antisymm ht hge
          rw [← heq]
          exact hst
  exact this _ (Nat.le_of_lt hr)

/-- One propagation step at the stable state: a predecessor that writes
the name, or holds a value for it, makes the name present at the
successor. -/
theorem step_present (cfg : CFG) (args : Option Arguments) (n : String)
    (a c : Nat) (hedge : predEdgeB cfg a c = true)
    (hstart : writesB cfg args a n = true ∨
      engineResults cfg args a n ≠ .Undefined) :
    engineResults cfg args c n ≠ .Undefined := by
  have hstab := stable_at_fuel cfg args
  apply (hstab c n).mpr
  rw [show engineIter cfg args (engineFuel cfg args + 1)
    = engineStep cfg args (engineResults cfg args) from rfl]
  apply (engineStep_pres_iff cfg args _ c n).mpr
  unfold predEdgeB at hedge
  cases hg : getBlock cfg c with
  | none => rw [hg] at hedge; cases hedge
  | some blk =>
      rw [hg] at hedge
      refine ⟨blk, rfl, a, by simpa [List.elem_iff] using hedge, ?_⟩
      apply (exitAt_pres_iff cfg args _ a n).mpr
      refine ⟨?_, hstart⟩
      rcases hstart with hw | hpres
      · unfold writesB at hw
        cases hga : getBlock cfg a with
        | none => rw [hga] at hw; cases hw
        | some ablk => exact ⟨ablk, rfl⟩
      · exact engineIter_pres_block cfg args _ a n hpres

theorem present_along_chain (cfg : CFG) (args : Option Arguments)
    (n : String) :
    ∀ (rest : List Nat) (a : Nat),
      List.Chain (fun u v => predEdgeB cfg u v = true) a rest →
      (writesB cfg args a n = true ∨
        engineResults cfg args a n ≠ .Undefined) →
      ∀ b, (a :: rest).getLast? = some b → rest ≠ [] →
        engineResults cfg args b n ≠ .Undefined := by
  intro rest
  induction rest with
  | nil =>
      intro a _ _ b _ hne
      exact absurd rfl hne
  | cons c rest2 ih =>
      intro a hchain hstart b hlast _
      rcases List.chain_cons.mp hchain with ⟨hedge, hchain2⟩
      have hpresc := step_present cfg args n a c hedge hstart
      rcases rest2 with _ | ⟨d, rest3⟩
      · have hb : b = c := by
          simp only [List.getLast?_cons_cons, List.getLast?_singleton,
            Option.some.injEq] at hlast
          exact hlast.symm
        rw [hb]
        exact hpresc
      · apply ih c hchain2 (Or.inr hpresc) b ?_ (by simp)
        rw [List.getLast?_cons_cons] at hlast
        exact hlast

/-- The lower bound of the lattice claim: a name written on some entry
path to a block is present (holds `Defined` or `PotentiallyDefined`) in
the computed fixed point at that block. -/
theorem path_write_present (cfg : CFG) (args : Option Arguments)
    (n : String) :
    ∀ (l : List Nat) (b : Nat), IsEntryPathTo cfg l b →
      WritesOnPath cfg args n l →
      engineResults cfg args b n ≠ .Undefined := by
  rintro l b ⟨hhead, hlast, hchain⟩ ⟨p, hp, hw⟩
  obtain ⟨lp, rfl⟩ := List.getLast?_eq_some_iff.mp hlast
  rw [List.dropLast_concat] at hp
  obtain ⟨A, B, rfl⟩ := List.mem_iff_append.mp hp
  have hre : (A ++ p :: B) ++ [b] = A ++ (p :: (B ++ [b])) := by simp
  rw [hre] at hchain
  rcases List.chain'_append.mp hchain with ⟨_, hsuffix, _⟩
  have hchain2 : List.Chain (fun u v => predEdgeB cfg u v = true) p
      (B ++ [b]) := hsuffix
  have hlast2 : (p :: (B ++ [b])).getLast? = some b := by
    rw [show p :: (B ++ [b]) = (p :: B) ++ [b] from rfl]
    exact List.getLast?_concat _
  exact present_along_chain cfg args n (B ++ [b]) p hchain2 (Or.inl hw) b
    hlast2 (by simp)

/-! ## C1 -/

/-- C1 (refuting the claim as stated): in `exSelfLoop`, block 0 assigns
`x` and every entry path to block 1 passes block 0, so `x` is written on
every path from the entry to block 1 — yet the computed status of `x` at
block 1 is `PotentiallyDefined`, not `Defined`: the engine seeds the
not-yet-computed back edge with `PotentiallyDefined` and this conservative
value survives the fixed point. -/
theorem c1_counterexample :
    (∀ l, IsEntryPathTo exSelfLoop l 1 →
      WritesOnPath exSelfLoop none "x" l)
  ∧ engineResults exSelfLoop none 1 "x" = .PotentiallyDefined := by
  constructor
  · intro l hpath
    exact entry_path_writes exSelfLoop none "x" (by decide)
       (by decide) hpath
  · decide

/-- C1 (amended): in a graph whose entry block has no predecessors and
whose blocks are all reachable from the entry, the computed fixed point
satisfies: a name written on every entry path to a block is present
(`Defined` or `PotentiallyDefined`) at that block; a name written on some
but not all entry paths is exactly `PotentiallyDefined`; and a name
written on no entry path is absent (`Undefined`). -/
theorem c1_definedness_lattice_amended (cfg : CFG) (args : Option Arguments)
    (b : Nat) (n : String)
    (h0 : ∀ blk0, getBlock cfg 0 = some blk0 → blk0.predecessors = [])
    (hreach : ∀ i blk, getBlock cfg i = some blk →
      ∃ l, IsEntryPathTo cfg l i)
    (hb : ∃ blk, getBlock cfg b = some blk) :
    ((∀ l, IsEntryPathTo cfg l b → WritesOnPath cfg args n l) →
      isDefinedAt cfg args n b ≠ .Undefined)
  ∧ ((∃ l, IsEntryPathTo cfg l b ∧ WritesOnPath cfg args n l) →
     (∃ l, IsEntryPathTo cfg l b ∧ ¬ WritesOnPath cfg args n l) →
      isDefinedAt cfg args n b = .PotentiallyDefined)
  ∧ ((∀ l, IsEntryPathTo cfg l b → ¬ WritesOnPath cfg args n l) →
      isDefinedAt cfg args n b = .Undefined) := by
  refine ⟨?_, ?_, ?_⟩
  · intro hall
    rcases hb with ⟨blk, hgb⟩
    obtain ⟨l, hl⟩ := hreach b blk hgb
    exact path_write_present cfg args n l b hl (hall l hl)
  · rintro ⟨l1, hl1, hw1⟩ ⟨l2, hl2, hnw2⟩
    have hpres : engineResults cfg args b n ≠ .Undefined :=
      path_write_present cfg args n l1 b hl1 hw1
    have hnotD : engineResults cfg args b n ≠ .Defined := by
      intro hD
      exact hnw2 (iter_defined_implies_all_paths cfg args h0
        (engineFuel cfg args) b n hD l2 hl2)
    cases hval : engineResults cfg args b n with
    | Undefined => exact absurd hval hpres
    | PotentiallyDefined => exact hval
    | Defined => exact absurd hval hnotD
  · intro hnone
    by_contra hne
    obtain ⟨l, hl, hw⟩ := iter_present_implies_some_path cfg args hreach
      (engineFuel cfg args) b n hne
    exact hnone l hl hw

theorem c1_witness :
    isDefinedAt exStraight none "x" 2 ≠ .Undefined :=
  (c1_definedness_lattice_amended exStraight none 2 "x"
    (fun blk0 h => by
      injection h with h2
      rw [← h2])
    (fun i blk h => by
      match i with
      | 0 => exact ⟨[0], rfl, rfl, List.chain'_singleton 0⟩
      | 1 => exact ⟨[0, 1], rfl, rfl,
          List.chain'_cons.mpr ⟨by decide, List.chain'_singleton 1⟩⟩
      | 2 => exact ⟨[0, 1, 2], rfl, rfl,
          List.chain'_cons.mpr ⟨by decide,
            List.chain'_cons.mpr ⟨by decide, List.chain'_singleton 2⟩⟩⟩
      | (m + 3) => exact Option.noConfusion h)
    ⟨⟨2, [], [1], []⟩, rfl⟩).1
    (fun l hl => entry_path_writes exStraight none "x" (by decide)
      (by decide) hl)

end Pyston
